import Mathlib

/-!
Verification of the pipeline-filtering core (`partial_run_utils`).

The data model mirrors the Pipeline IR protos used by the code: a pipeline is
an ordered list of node-or-subpipeline elements, an execution mode and an
optional deployment config.  Opaque proto payloads are modelled as `Nat`.
Python dicts / proto maps are modelled as association lists with the same
insertion-order semantics.
-/

namespace Tfx

/-- Execution mode tag of a Pipeline (`pipeline_pb2.Pipeline.ExecutionMode`). -/
inductive ExecutionMode
  | SYNC
  | ASYNC
  deriving DecidableEq, Repr

/-- An input channel (`pipeline_pb2.InputSpec.Channel`): the id of the
producer node it references (`channel.producer_node_query.id`) plus an opaque
payload standing for all remaining channel fields. -/
structure Channel where
  producer_id : String
  payload : Nat
  deriving DecidableEq, Repr

/-- An input spec (`pipeline_pb2.InputSpec`): an ordered list of channels. -/
structure InputSpec where
  channels : List Channel
  deriving DecidableEq, Repr

/-- A pipeline node (`pipeline_pb2.PipelineNode`): its id (`node_info.id`),
the `upstream_nodes` and `downstream_nodes` id lists, the `inputs.inputs`
proto map (input name to `InputSpec`, as an ordered association list) and an
opaque payload standing for all remaining node fields. -/
structure PipelineNode where
  node_id : String
  upstream_nodes : List String
  downstream_nodes : List String
  inputs : List (String × InputSpec)
  extra : Nat
  deriving DecidableEq, Repr

/-- One element of `pipeline.nodes` (`pipeline_pb2.Pipeline.PipelineOrNode`):
the oneof holds either a pipeline node or a sub-pipeline (modelled opaquely,
since the code rejects it up front). -/
inductive PipelineOrNode
  | pipeline_node (node : PipelineNode)
  | sub_pipeline (sub : Nat)
  deriving DecidableEq, Repr

/-- Default (empty) `PipelineNode`, as returned by proto3 field access when
the oneof holds the other variant. -/
def emptyNode : PipelineNode := ⟨"", [], [], [], 0⟩

/-- Accessing `pipeline_or_node.pipeline_node`: yields the stored node, or
the default node when the `sub_pipeline` variant is set (proto3 semantics). -/
def PipelineOrNode.getNode : PipelineOrNode → PipelineNode
  | .pipeline_node n => n
  | .sub_pipeline _ => emptyNode

/-- `pipeline_or_node.HasField('sub_pipeline')`. -/
def PipelineOrNode.isSubPipeline : PipelineOrNode → Bool
  | .pipeline_node _ => false
  | .sub_pipeline _ => true

/-- The `IntermediateDeploymentConfig` proto: three per-node maps
(`executor_specs`, `custom_driver_specs`, `node_level_platform_configs`),
each keyed by node id with an opaque per-node blob. -/
structure IntermediateDeploymentConfig where
  executor_specs : List (String × Nat)
  custom_driver_specs : List (String × Nat)
  node_level_platform_configs : List (String × Nat)
  deriving DecidableEq, Repr

/-- The Pipeline IR proto: execution mode, ordered node list, optional
deployment config (the `Any` packing is transparent here), and an opaque
payload standing for all remaining top-level fields that `CopyFrom`
preserves. -/
structure Pipeline where
  execution_mode : ExecutionMode
  nodes : List PipelineOrNode
  deployment_config : Option IntermediateDeploymentConfig
  extra : Nat
  deriving DecidableEq, Repr

/-- The distinct `ValueError`s raised by `filter_pipeline`'s validators, plus
the `KeyError` a failed dict lookup would raise during traversal. -/
inductive FilterError
  | NotSyncPipeline
  | SubPipelineFound (element : PipelineOrNode)
  | UpstreamNotSorted (node_id : String) (upstream_id : String)
  | DownstreamNotSorted (node_id : String) (downstream_id : String)
  | KeyError (missing_id : String)
  deriving DecidableEq, Repr

/-- Traversal direction (`_Direction`). -/
inductive Direction
  | UPSTREAM
  | DOWNSTREAM
  deriving DecidableEq, Repr

/-- The neighbor list a traversal direction follows. -/
def dirList (d : Direction) (n : PipelineNode) : List String :=
  match d with
  | .UPSTREAM => n.upstream_nodes
  | .DOWNSTREAM => n.downstream_nodes

/-- `_ensure_sync_pipeline`: raises unless the execution mode is SYNC. -/
def ensure_sync_pipeline (p : Pipeline) : Except FilterError Unit :=
  if p.execution_mode ≠ ExecutionMode.SYNC then .error .NotSyncPipeline
  else .ok ()

/-- `_ensure_no_subpipeline_nodes`: raises on the first element whose
`sub_pipeline` field is set. -/
def ensure_no_subpipeline_nodes (p : Pipeline) : Except FilterError Unit :=
  match p.nodes.find? (fun pn => pn.isSubPipeline) with
  | some pn => .error (.SubPipelineFound pn)
  | none => .ok ()

/-- The error raised by the topological-sort check for a given direction. -/
def mkSortErr : Direction → String → String → FilterError
  | .UPSTREAM, nid, u => .UpstreamNotSorted nid u
  | .DOWNSTREAM, nid, v => .DownstreamNotSorted nid v

/-- One pass of `_ensure_topologically_sorted`: walk the element list keeping
a visited set of node ids; raise on the first neighbor id (in direction `d`)
not yet visited. -/
def sortedLoop (d : Direction) : List PipelineOrNode → List String → Except FilterError Unit
  | [], _ => .ok ()
  | pn :: rest, visited =>
    match (dirList d pn.getNode).find? (fun u => !(decide (u ∈ visited))) with
    | some u => .error (mkSortErr d pn.getNode.node_id u)
    | none => sortedLoop d rest (pn.getNode.node_id :: visited)

/-- `_ensure_topologically_sorted`: the forward upstream pass over the node
list, then the downstream pass over the reversed list. -/
def ensure_topologically_sorted (p : Pipeline) : Except FilterError Unit := do
  sortedLoop .UPSTREAM p.nodes []
  sortedLoop .DOWNSTREAM p.nodes.reverse []

/-- An ordered mapping from node id to node (`collections.OrderedDict`). -/
abbrev NodeMap := List (String × PipelineNode)

/-- Ordered-dict assignment `m[k] = v`: overwrite in place if the key exists,
otherwise append at the end. -/
def odInsert (m : NodeMap) (k : String) (v : PipelineNode) : NodeMap :=
  if m.any (fun q => q.1 == k) then
    m.map (fun q => if q.1 == k then (k, v) else q)
  else m ++ [(k, v)]

/-- Ordered-dict lookup `m[k]` (first matching key). -/
def odLookup (m : NodeMap) (k : String) : Option PipelineNode :=
  (m.find? (fun q => q.1 == k)).map Prod.snd

/-- The key list of an ordered mapping. -/
def odKeys (m : NodeMap) : List String := m.map Prod.fst

/-- `_make_ordered_node_map`: insert each node under its id, in order. -/
def make_ordered_node_map (p : Pipeline) : NodeMap :=
  p.nodes.foldl (fun m pn => odInsert m pn.getNode.node_id pn.getNode) []

/-- Total number of neighbor-list entries stored in a node map; used to bound
the growth of the DFS work stack. -/
def edgeBound (m : NodeMap) : Nat :=
  (m.map (fun q => q.2.upstream_nodes.length + q.2.downstream_nodes.length)).sum

/-- Termination measure for the DFS loop: unvisited keys weighted by the
maximal stack growth, plus the current stack length. -/
def dfsMeasure (m : NodeMap) (result stack : List String) : Nat :=
  ((odKeys m).toFinset \ result.toFinset).card * (edgeBound m + 2) + stack.length

theorem mem_odKeys_of_lookup {m : NodeMap} {c : String} {n : PipelineNode}
    (hl : odLookup m c = some n) : c ∈ odKeys m := by
  unfold odLookup at hl
  rcases Option.map_eq_some'.mp hl with ⟨q, hq, rfl⟩
  have hmem := List.mem_of_find?_eq_some hq
  have hbeq := List.find?_some hq
  have : q.1 = c := by simpa using hbeq
  exact this ▸ List.mem_map_of_mem Prod.fst hmem

theorem lookup_mem {m : NodeMap} {c : String} {n : PipelineNode}
    (hl : odLookup m c = some n) : (c, n) ∈ m := by
  unfold odLookup at hl
  rcases Option.map_eq_some'.mp hl with ⟨q, hq, h2⟩
  have hmem := List.mem_of_find?_eq_some hq
  have hbeq := List.find?_some hq
  have h1 : q.1 = c := by simpa using hbeq
  have : q = (c, n) := by
    cases q; simp_all
  exact this ▸ hmem

theorem dirList_length_le_edgeBound {m : NodeMap} {c : String} {n : PipelineNode}
    (d : Direction) (hl : odLookup m c = some n) :
    (dirList d n).length ≤ edgeBound m := by
  have hmem : (c, n) ∈ m := lookup_mem hl
  have hx : n.upstream_nodes.length + n.downstream_nodes.length ≤ edgeBound m := by
    unfold edgeBound
    exact List.single_le_sum (fun x _ => Nat.zero_le x) _
      (List.mem_map_of_mem _ hmem)
  cases d <;> simp [dirList] <;> omega

theorem dfsMeasure_lt_of_new {m : NodeMap} {result : List String} {current : String}
    {node : PipelineNode} (d : Direction)
    (h : current ∉ result) (hl : odLookup m current = some node) (rest : List String) :
    dfsMeasure m (current :: result) ((dirList d node).reverse ++ rest)
      < dfsMeasure m result (current :: rest) := by
  have hck : current ∈ (odKeys m).toFinset := List.mem_toFinset.mpr (mem_odKeys_of_lookup hl)
  have hcr : current ∉ result.toFinset := fun hc => h (List.mem_toFinset.mp hc)
  have hsd : current ∈ (odKeys m).toFinset \ result.toFinset :=
    Finset.mem_sdiff.mpr ⟨hck, hcr⟩
  have hins : (odKeys m).toFinset \ (current :: result).toFinset
      = ((odKeys m).toFinset \ result.toFinset).erase current := by
    rw [List.toFinset_cons, Finset.sdiff_insert]
  have hcard : ((odKeys m).toFinset \ (current :: result).toFinset).card
      = ((odKeys m).toFinset \ result.toFinset).card - 1 := by
    rw [hins, Finset.card_erase_of_mem hsd]
  have hpos : 1 ≤ ((odKeys m).toFinset \ result.toFinset).card :=
    Finset.card_pos.mpr ⟨current, hsd⟩
  have hlen : (dirList d node).length ≤ edgeBound m := dirList_length_le_edgeBound d hl
  unfold dfsMeasure
  rw [hcard]
  set A := ((odKeys m).toFinset \ result.toFinset).card with hA
  set B := edgeBound m with hB
  have hmul : (A - 1) * (B + 2) + (B + 2) = A * (B + 2) := by
    have : A - 1 + 1 = A := Nat.succ_pred_eq_of_pos hpos
    calc (A - 1) * (B + 2) + (B + 2) = (A - 1 + 1) * (B + 2) := by ring
    _ = A * (B + 2) := by rw [this]
  have hstack : ((dirList d node).reverse ++ rest).length ≤ B + rest.length := by
    simp only [List.length_append, List.length_reverse]
    omega
  simp only [List.length_cons]
  omega

/-- `_traverse`'s inner work loop: pop the top of the stack; skip it if
already in the result set, otherwise record it and push its neighbors
(a missing key is a `KeyError`, reported as the offending id). -/
def dfsLoop (m : NodeMap) (d : Direction) (result : List String) (stack : List String) :
    Except String (List String) :=
  match stack with
  | [] => .ok result
  | current :: rest =>
    if h : current ∈ result then
      dfsLoop m d result rest
    else
      match hl : odLookup m current with
      | none => .error current
      | some node => dfsLoop m d (current :: result) ((dirList d node).reverse ++ rest)
termination_by dfsMeasure m result stack
decreasing_by
  · simp only [dfsMeasure, List.length_cons]; omega
  · exact dfsMeasure_lt_of_new d h hl rest

/-- `_traverse`: run the DFS loop from each start node in turn, accumulating
one visited set. -/
def traverse (m : NodeMap) (d : Direction) (start_nodes : List String) :
    Except String (List String) :=
  start_nodes.foldlM (fun result s => dfsLoop m d result [s]) []

/-- Fuel-indexed copy of `dfsLoop`, used only so that concrete runs reduce
inside the kernel; `dfsLoopFuel_eq` shows it agrees with `dfsLoop` whenever
the fuel is at least the termination measure. -/
def dfsLoopFuel (m : NodeMap) (d : Direction) :
    Nat → List String → List String → Except String (List String)
  | _, result, [] => .ok result
  | 0, result, _ :: _ => .ok result
  | fuel + 1, result, current :: rest =>
    if current ∈ result then
      dfsLoopFuel m d fuel result rest
    else
      match odLookup m current with
      | none => .error current
      | some node => dfsLoopFuel m d fuel (current :: result) ((dirList d node).reverse ++ rest)

theorem dfsLoopFuel_eq (m : NodeMap) (d : Direction) :
    ∀ fuel result stack, dfsMeasure m result stack ≤ fuel →
      dfsLoopFuel m d fuel result stack = dfsLoop m d result stack := by
  intro fuel
  induction fuel using Nat.strong_induction_on with
  | _ fuel ih =>
    intro result stack hle
    match stack with
    | [] => cases fuel <;> simp [dfsLoopFuel, dfsLoop]
    | current :: rest =>
      have hstack : 1 ≤ dfsMeasure m result (current :: rest) := by
        simp only [dfsMeasure, List.length_cons]; omega
      match fuel, hle with
      | fuel + 1, hle =>
        rw [dfsLoop]
        by_cases h : current ∈ result
        · have hm : dfsMeasure m result rest < dfsMeasure m result (current :: rest) := by
            simp only [dfsMeasure, List.length_cons]; omega
          simp only [dfsLoopFuel, if_pos h, dif_pos h]
          exact ih fuel (by omega) result rest (by omega)
        · simp only [dfsLoopFuel, if_neg h, dif_neg h]
          match hl : odLookup m current with
          | none => rfl
          | some node =>
            have hm := dfsMeasure_lt_of_new (m := m) (d := d) h hl rest
            exact ih fuel (by omega) _ _ (by omega)

/-- Executable entry to the DFS loop: runs `dfsLoopFuel` with a fuel bound
that provably dominates the termination measure. -/
def dfsLoopExec (m : NodeMap) (d : Direction) (result stack : List String) :
    Except String (List String) :=
  dfsLoopFuel m d ((odKeys m).length * (edgeBound m + 2) + stack.length) result stack

theorem dfsLoopExec_eq (m : NodeMap) (d : Direction) (result stack : List String) :
    dfsLoopExec m d result stack = dfsLoop m d result stack := by
  apply dfsLoopFuel_eq
  have h1 : ((odKeys m).toFinset \ result.toFinset).card ≤ (odKeys m).length := by
    calc ((odKeys m).toFinset \ result.toFinset).card ≤ (odKeys m).toFinset.card :=
          Finset.card_le_card (Finset.sdiff_subset)
    _ ≤ (odKeys m).length := (odKeys m).toFinset_card_le
  unfold dfsMeasure
  have := Nat.mul_le_mul_right (edgeBound m + 2) h1
  omega

/-- Executable copy of `traverse` (same recurrence, fueled DFS). -/
def traverseExec (m : NodeMap) (d : Direction) (start_nodes : List String) :
    Except String (List String) :=
  start_nodes.foldlM (fun result s => dfsLoopExec m d result [s]) []

theorem traverseExec_eq (m : NodeMap) (d : Direction) (start_nodes : List String) :
    traverseExec m d start_nodes = traverse m d start_nodes := by
  unfold traverseExec traverse
  congr 1
  funext result s
  exact dfsLoopExec_eq m d result [s]

/-- `_filter_node_map`: compute the upstream sweep from the to-nodes and the
downstream sweep from the from-nodes, then keep (in original order) exactly
the entries whose key lies in both visited sets. -/
def filter_node_map (m : NodeMap) (from_node_ids to_node_ids : List String) :
    Except String NodeMap := do
  let ancestors_of_to_nodes ← traverse m .UPSTREAM to_node_ids
  let descendents_of_from_nodes ← traverse m .DOWNSTREAM from_node_ids
  pure (m.foldl
    (fun result q =>
      if q.1 ∈ ancestors_of_to_nodes ∧ q.1 ∈ descendents_of_from_nodes then
        odInsert result q.1 q.2
      else result) [])

/-- Executable copy of `filter_node_map`. -/
def filter_node_mapExec (m : NodeMap) (from_node_ids to_node_ids : List String) :
    Except String NodeMap := do
  let ancestors_of_to_nodes ← traverseExec m .UPSTREAM to_node_ids
  let descendents_of_from_nodes ← traverseExec m .DOWNSTREAM from_node_ids
  pure (m.foldl
    (fun result q =>
      if q.1 ∈ ancestors_of_to_nodes ∧ q.1 ∈ descendents_of_from_nodes then
        odInsert result q.1 q.2
      else result) [])

theorem filter_node_mapExec_eq (m : NodeMap) (f t : List String) :
    filter_node_mapExec m f t = filter_node_map m f t := by
  unfold filter_node_mapExec filter_node_map
  rw [traverseExec_eq, traverseExec_eq]

/-- `_remove_dangling_downstream_nodes`: drop the downstream ids that were
filtered out; the node is returned untouched when nothing is dropped. -/
def remove_dangling_downstream_nodes (node : PipelineNode) (node_ids_to_keep : List String) :
    PipelineNode :=
  let downstream_nodes_to_keep :=
    node.downstream_nodes.filter (fun dn => decide (dn ∈ node_ids_to_keep))
  if downstream_nodes_to_keep.length = node.downstream_nodes.length then node
  else { node with downstream_nodes := downstream_nodes_to_keep }

/-- An orphaned-channel mapping: producer node id to the channels that named
it (`collections.defaultdict(list)` keyed in first-touch order). -/
abbrev ChannelMap := List (String × List Channel)

/-- `d[k].append(c)` on a defaultdict of lists. -/
def mdAppend (m : ChannelMap) (k : String) (c : Channel) : ChannelMap :=
  if m.any (fun q => q.1 == k) then
    m.map (fun q => if q.1 == k then (q.1, q.2 ++ [c]) else q)
  else m ++ [(k, [c])]

/-- `d[k] += cs` on a defaultdict of lists. -/
def mdExtend (m : ChannelMap) (k : String) (cs : List Channel) : ChannelMap :=
  if m.any (fun q => q.1 == k) then
    m.map (fun q => if q.1 == k then (q.1, q.2 ++ cs) else q)
  else m ++ [(k, cs)]

/-- Lookup in a `ChannelMap` (empty list when the key is absent). -/
def cmLookup (m : ChannelMap) (k : String) : List Channel :=
  ((m.find? (fun q => q.1 == k)).map Prod.snd).getD []

/-- The channel-collection loop of `_handle_missing_inputs`: for every channel
of every input spec whose producer id is in the removed set, append it under
that producer id. -/
def collectOrphanChannels (node : PipelineNode) (removed : List String) : ChannelMap :=
  node.inputs.foldl
    (fun acc input_spec =>
      input_spec.2.channels.foldl
        (fun acc2 channel =>
          if channel.producer_id ∈ removed then mdAppend acc2 channel.producer_id channel
          else acc2) acc) []

/-- `_handle_missing_inputs`: split the node's upstream ids into kept and
removed; if nothing was removed return the node unchanged with no report,
otherwise rewrite `upstream_nodes` to the kept ids and report every input
channel whose producer id was removed. -/
def handle_missing_inputs (node : PipelineNode) (node_ids_to_keep : List String) :
    PipelineNode × ChannelMap :=
  let upstream_nodes_to_keep :=
    node.upstream_nodes.filter (fun u => decide (u ∈ node_ids_to_keep))
  let upstream_nodes_removed :=
    node.upstream_nodes.filter (fun u => !(decide (u ∈ node_ids_to_keep)))
  if upstream_nodes_removed.isEmpty then (node, [])
  else
    ({ node with upstream_nodes := upstream_nodes_to_keep },
     collectOrphanChannels node upstream_nodes_removed)

/-- `_fix_nodes`: repair each retained node (downstream pruning, then
missing-input handling, both against the retained key set) and merge the
per-node orphaned-channel reports into one mapping. -/
def fix_nodes (node_map : NodeMap) : NodeMap × ChannelMap :=
  node_map.foldl
    (fun acc q =>
      let new_node := remove_dangling_downstream_nodes q.2 (odKeys node_map)
      let step := handle_missing_inputs new_node (odKeys node_map)
      (odInsert acc.1 q.1 step.1,
       step.2.foldl (fun mm r => mdExtend mm r.1 r.2) acc.2))
    ([], [])

/-- `_fix_per_node_config`: delete every entry whose key is not retained. -/
def fix_per_node_config (config_map : List (String × Nat)) (node_ids_to_keep : List String) :
    List (String × Nat) :=
  config_map.filter (fun q => decide (q.1 ∈ node_ids_to_keep))

/-- `_fix_deployment_config`: `None` when the input pipeline carries no
deployment config; otherwise filter each of the three per-node maps by
retained key. -/
def fix_deployment_config (input_pipeline : Pipeline) (node_ids_to_keep : List String) :
    Option IntermediateDeploymentConfig :=
  match input_pipeline.deployment_config with
  | none => none
  | some dc => some
      { executor_specs := fix_per_node_config dc.executor_specs node_ids_to_keep
        custom_driver_specs := fix_per_node_config dc.custom_driver_specs node_ids_to_keep
        node_level_platform_configs :=
          fix_per_node_config dc.node_level_platform_configs node_ids_to_keep }

/-- `_make_filtered_pipeline`: copy the input pipeline, replace its node list
with the repaired nodes (in retained order) and, when a filtered deployment
config was produced, install it. -/
def make_filtered_pipeline (input_pipeline : Pipeline) (node_map : NodeMap)
    (fixed_deployment_config : Option IntermediateDeploymentConfig) : Pipeline :=
  { input_pipeline with
    nodes := node_map.map (fun q => PipelineOrNode.pipeline_node q.2)
    deployment_config :=
      match fixed_deployment_config with
      | some f => some f
      | none => input_pipeline.deployment_config }

/-- `filter_pipeline`: validate, index, sweep, repair, filter the deployment
config and reassemble; a failed traversal lookup surfaces as `KeyError`. -/
def filter_pipeline (input_pipeline : Pipeline)
    (from_nodes to_nodes : String → Bool) :
    Except FilterError (Pipeline × ChannelMap) := do
  ensure_sync_pipeline input_pipeline
  ensure_no_subpipeline_nodes input_pipeline
  ensure_topologically_sorted input_pipeline
  let node_map := make_ordered_node_map input_pipeline
  let from_node_ids := (odKeys node_map).filter from_nodes
  let to_node_ids := (odKeys node_map).filter to_nodes
  match filter_node_map node_map from_node_ids to_node_ids with
  | .error missing => .error (.KeyError missing)
  | .ok node_map2 =>
    let step := fix_nodes node_map2
    let fixed_deployment_config := fix_deployment_config input_pipeline (odKeys step.1)
    let filtered_pipeline := make_filtered_pipeline input_pipeline step.1 fixed_deployment_config
    .ok (filtered_pipeline, step.2)

/-- Executable copy of `filter_pipeline` (fueled DFS inside). -/
def filter_pipelineExec (input_pipeline : Pipeline)
    (from_nodes to_nodes : String → Bool) :
    Except FilterError (Pipeline × ChannelMap) := do
  ensure_sync_pipeline input_pipeline
  ensure_no_subpipeline_nodes input_pipeline
  ensure_topologically_sorted input_pipeline
  let node_map := make_ordered_node_map input_pipeline
  let from_node_ids := (odKeys node_map).filter from_nodes
  let to_node_ids := (odKeys node_map).filter to_nodes
  match filter_node_mapExec node_map from_node_ids to_node_ids with
  | .error missing => .error (.KeyError missing)
  | .ok node_map2 =>
    let step := fix_nodes node_map2
    let fixed_deployment_config := fix_deployment_config input_pipeline (odKeys step.1)
    let filtered_pipeline := make_filtered_pipeline input_pipeline step.1 fixed_deployment_config
    .ok (filtered_pipeline, step.2)

theorem filter_pipelineExec_eq (p : Pipeline) (f t : String → Bool) :
    filter_pipelineExec p f t = filter_pipeline p f t := by
  unfold filter_pipelineExec filter_pipeline
  simp only [filter_node_mapExec_eq]

/-! ### Specification-side notions: graph edges and reachability -/

/-- The id sequence of a pipeline's nodes. -/
def NodeIds (p : Pipeline) : List String := p.nodes.map (fun pn => pn.getNode.node_id)

/-- The id-to-node association list of a pipeline, in sequence order. -/
def pairsOf (p : Pipeline) : NodeMap :=
  p.nodes.map (fun pn => (pn.getNode.node_id, pn.getNode))

/-- One edge step over a node map: `y` is listed among the direction-`d`
neighbors of the node stored under `x`. -/
def mapEdge (m : NodeMap) (d : Direction) (x y : String) : Prop :=
  ∃ n, odLookup m x = some n ∧ y ∈ dirList d n

/-- Reachability (reflexive-transitive, so a start node reaches itself) over
a node map from any node of a start list. -/
def MapReachable (m : NodeMap) (d : Direction) (starts : List String) (x : String) : Prop :=
  ∃ s ∈ starts, Relation.ReflTransGen (mapEdge m d) s x

/-- One edge step over a pipeline's graph: some node of the sequence has id
`x` and lists `y` among its direction-`d` neighbors. -/
def pipelineEdge (p : Pipeline) (d : Direction) (x y : String) : Prop :=
  ∃ pn ∈ p.nodes, pn.getNode.node_id = x ∧ y ∈ dirList d pn.getNode

/-- Reachability over a pipeline's graph from any node of a start list,
including the start nodes themselves. -/
def PipeReachable (p : Pipeline) (d : Direction) (starts : List String) (x : String) : Prop :=
  ∃ s ∈ starts, Relation.ReflTransGen (pipelineEdge p d) s x

/-- Every neighbor id stored in the map is itself a key of the map. -/
def ClosedMap (m : NodeMap) (d : Direction) : Prop :=
  ∀ x n, odLookup m x = some n → ∀ y ∈ dirList d n, y ∈ odKeys m

/-- A set of ids closed under the map's direction-`d` edges. -/
def ClosedList (m : NodeMap) (d : Direction) (R : List String) : Prop :=
  ∀ x ∈ R, ∀ n, odLookup m x = some n → ∀ y ∈ dirList d n, y ∈ R

/-! ### DFS loop: step equations and correctness -/

theorem dfsLoop_eq_nil (m : NodeMap) (d : Direction) (result : List String) :
    dfsLoop m d result [] = .ok result := by
  rw [dfsLoop]

theorem dfsLoop_eq_visited (m : NodeMap) (d : Direction) {result : List String}
    {current : String} (rest : List String) (h : current ∈ result) :
    dfsLoop m d result (current :: rest) = dfsLoop m d result rest := by
  rw [dfsLoop]
  simp only [dif_pos h]

theorem dfsLoop_eq_missing (m : NodeMap) (d : Direction) {result : List String}
    {current : String} (rest : List String) (h : current ∉ result)
    (hl : odLookup m current = none) :
    dfsLoop m d result (current :: rest) = .error current := by
  rw [dfsLoop]
  simp only [dif_neg h]
  split
  · rfl
  · rename_i node heq
    rw [hl] at heq
    cases heq

theorem dfsLoop_eq_new (m : NodeMap) (d : Direction) {result : List String}
    {current : String} {node : PipelineNode} (rest : List String) (h : current ∉ result)
    (hl : odLookup m current = some node) :
    dfsLoop m d result (current :: rest)
      = dfsLoop m d (current :: result) ((dirList d node).reverse ++ rest) := by
  rw [dfsLoop]
  simp only [dif_neg h]
  split
  · rename_i heq
    rw [hl] at heq
    cases heq
  · rename_i node' heq
    rw [hl] at heq
    injection heq with he
    rw [he]

theorem dfsLoop_grows (m : NodeMap) (d : Direction) (result stack : List String) :
    ∀ final, dfsLoop m d result stack = .ok final → result ⊆ final := by
  induction result, stack using dfsLoop.induct m d with
  | case1 result =>
    intro final h
    rw [dfsLoop_eq_nil] at h
    cases h
    exact fun x hx => hx
  | case2 result current rest hmem ih =>
    intro final h
    rw [dfsLoop_eq_visited m d rest hmem] at h
    exact ih final h
  | case3 result current rest hmem hl =>
    intro final h
    rw [dfsLoop_eq_missing m d rest hmem hl] at h
    cases h
  | case4 result current rest hmem node hl ih =>
    intro final h
    rw [dfsLoop_eq_new m d rest hmem hl] at h
    exact fun x hx => ih final h (List.mem_cons_of_mem _ hx)

theorem dfsLoop_stack_sub (m : NodeMap) (d : Direction) (result stack : List String) :
    ∀ final, dfsLoop m d result stack = .ok final → ∀ x ∈ stack, x ∈ final := by
  induction result, stack using dfsLoop.induct m d with
  | case1 result =>
    intro final _ x hx
    cases hx
  | case2 result current rest hmem ih =>
    intro final h x hx
    rw [dfsLoop_eq_visited m d rest hmem] at h
    rcases List.mem_cons.mp hx with rfl | hx'
    · exact dfsLoop_grows m d result rest final h hmem
    · exact ih final h x hx'
  | case3 result current rest hmem hl =>
    intro final h
    rw [dfsLoop_eq_missing m d rest hmem hl] at h
    cases h
  | case4 result current rest hmem node hl ih =>
    intro final h x hx
    rw [dfsLoop_eq_new m d rest hmem hl] at h
    rcases List.mem_cons.mp hx with rfl | hx'
    · exact dfsLoop_grows m d _ _ final h (List.mem_cons_self _ _)
    · exact ih final h x (List.mem_append_right _ hx')

theorem dfsLoop_closed (m : NodeMap) (d : Direction) (result stack : List String) :
    ∀ final, dfsLoop m d result stack = .ok final →
    (∀ x ∈ result, ∀ n, odLookup m x = some n → ∀ y ∈ dirList d n, y ∈ result ∨ y ∈ stack) →
    ∀ x ∈ final, ∀ n, odLookup m x = some n → ∀ y ∈ dirList d n, y ∈ final := by
  induction result, stack using dfsLoop.induct m d with
  | case1 result =>
    intro final h hinv
    rw [dfsLoop_eq_nil] at h
    cases h
    intro x hx n hn y hy
    rcases hinv x hx n hn y hy with h1 | h1
    · exact h1
    · cases h1
  | case2 result current rest hmem ih =>
    intro final h hinv
    rw [dfsLoop_eq_visited m d rest hmem] at h
    refine ih final h ?_
    intro x hx n hn y hy
    rcases hinv x hx n hn y hy with h1 | h1
    · exact Or.inl h1
    · rcases List.mem_cons.mp h1 with rfl | h2
      · exact Or.inl hmem
      · exact Or.inr h2
  | case3 result current rest hmem hl =>
    intro final h
    rw [dfsLoop_eq_missing m d rest hmem hl] at h
    cases h
  | case4 result current rest hmem node hl ih =>
    intro final h hinv
    rw [dfsLoop_eq_new m d rest hmem hl] at h
    refine ih final h ?_
    intro x hx n hn y hy
    rcases List.mem_cons.mp hx with rfl | hx'
    · rw [hl] at hn
      injection hn with he
      subst he
      exact Or.inr (List.mem_append_left _ (List.mem_reverse.mpr hy))
    · rcases hinv x hx' n hn y hy with h1 | h1
      · exact Or.inl (List.mem_cons_of_mem _ h1)
      · rcases List.mem_cons.mp h1 with rfl | h2
        · exact Or.inl (List.mem_cons_self _ _)
        · exact Or.inr (List.mem_append_right _ h2)

theorem dfsLoop_sound (m : NodeMap) (d : Direction) (result stack : List String) :
    ∀ final, dfsLoop m d result stack = .ok final →
    ∀ x ∈ final, x ∈ result ∨ ∃ s ∈ stack, Relation.ReflTransGen (mapEdge m d) s x := by
  induction result, stack using dfsLoop.induct m d with
  | case1 result =>
    intro final h x hx
    rw [dfsLoop_eq_nil] at h
    cases h
    exact Or.inl hx
  | case2 result current rest hmem ih =>
    intro final h x hx
    rw [dfsLoop_eq_visited m d rest hmem] at h
    rcases ih final h x hx with h1 | ⟨s, hs, hr⟩
    · exact Or.inl h1
    · exact Or.inr ⟨s, List.mem_cons_of_mem _ hs, hr⟩
  | case3 result current rest hmem hl =>
    intro final h
    rw [dfsLoop_eq_missing m d rest hmem hl] at h
    cases h
  | case4 result current rest hmem node hl ih =>
    intro final h x hx
    rw [dfsLoop_eq_new m d rest hmem hl] at h
    rcases ih final h x hx with h1 | ⟨s, hs, hr⟩
    · rcases List.mem_cons.mp h1 with rfl | h2
      · exact Or.inr ⟨x, List.mem_cons_self _ _, Relation.ReflTransGen.refl⟩
      · exact Or.inl h2
    · rcases List.mem_append.mp hs with hs1 | hs2
      · have hedge : mapEdge m d current s := ⟨node, hl, List.mem_reverse.mp hs1⟩
        exact Or.inr ⟨current, List.mem_cons_self _ _, Relation.ReflTransGen.head hedge hr⟩
      · exact Or.inr ⟨s, List.mem_cons_of_mem _ hs2, hr⟩

theorem lookup_isSome_of_mem_keys {m : NodeMap} {x : String} (hx : x ∈ odKeys m) :
    ∃ n, odLookup m x = some n := by
  rcases List.mem_map.mp hx with ⟨q, hq, rfl⟩
  have hsome : (m.find? (fun r => r.1 == q.1)).isSome := by
    apply List.find?_isSome.mpr
    exact ⟨q, hq, by simp⟩
  rcases Option.isSome_iff_exists.mp hsome with ⟨r, hr⟩
  exact ⟨r.2, by simp [odLookup, hr]⟩

theorem dfsLoop_total (m : NodeMap) (d : Direction) (hc : ClosedMap m d)
    (result stack : List String) :
    (∀ x ∈ stack, x ∈ odKeys m) → ∃ final, dfsLoop m d result stack = .ok final := by
  induction result, stack using dfsLoop.induct m d with
  | case1 result =>
    intro _
    exact ⟨result, dfsLoop_eq_nil m d result⟩
  | case2 result current rest hmem ih =>
    intro hs
    rcases ih (fun x hx => hs x (List.mem_cons_of_mem _ hx)) with ⟨final, hf⟩
    exact ⟨final, (dfsLoop_eq_visited m d rest hmem).trans hf⟩
  | case3 result current rest hmem hl =>
    intro hs
    exfalso
    rcases lookup_isSome_of_mem_keys (hs current (List.mem_cons_self _ _)) with ⟨n, hn⟩
    rw [hl] at hn
    cases hn
  | case4 result current rest hmem node hl ih =>
    intro hs
    have hstack : ∀ x ∈ (dirList d node).reverse ++ rest, x ∈ odKeys m := by
      intro x hx
      rcases List.mem_append.mp hx with h1 | h2
      · exact hc current node hl x (List.mem_reverse.mp h1)
      · exact hs x (List.mem_cons_of_mem _ h2)
    rcases ih hstack with ⟨final, hf⟩
    exact ⟨final, (dfsLoop_eq_new m d rest hmem hl).trans hf⟩

theorem reach_mem_of_closed (m : NodeMap) (d : Direction) {F : List String}
    (hc : ClosedList m d F) {s x : String} (hs : s ∈ F)
    (hr : Relation.ReflTransGen (mapEdge m d) s x) : x ∈ F := by
  induction hr with
  | refl => exact hs
  | tail _ hbc ih =>
    rcases hbc with ⟨n, hn, hy⟩
    exact hc _ ih n hn _ hy

theorem dfs_run_spec (m : NodeMap) (d : Direction) {R F : List String} {s : String}
    (hR : ClosedList m d R) (h : dfsLoop m d R [s] = .ok F) :
    ClosedList m d F ∧ ∀ x, x ∈ F ↔ x ∈ R ∨ Relation.ReflTransGen (mapEdge m d) s x := by
  have hclosed : ClosedList m d F := by
    refine dfsLoop_closed m d R [s] F h ?_
    intro x hx n hn y hy
    exact Or.inl (hR x hx n hn y hy)
  refine ⟨hclosed, fun x => ⟨fun hx => ?_, fun hx => ?_⟩⟩
  · rcases dfsLoop_sound m d R [s] F h x hx with h1 | ⟨t, ht, hr⟩
    · exact Or.inl h1
    · rcases List.mem_cons.mp ht with rfl | h2
      · exact Or.inr hr
      · cases h2
  · rcases hx with hx | hr
    · exact dfsLoop_grows m d R [s] F h hx
    · exact reach_mem_of_closed m d hclosed
        (dfsLoop_stack_sub m d R [s] F h s (List.mem_cons_self _ _)) hr

theorem traverse_go_spec (m : NodeMap) (d : Direction) :
    ∀ (starts : List String) (R F : List String), ClosedList m d R →
    starts.foldlM (fun result s => dfsLoop m d result [s]) R = .ok F →
    ClosedList m d F ∧ ∀ x, x ∈ F ↔ (x ∈ R ∨ MapReachable m d starts x) := by
  intro starts
  induction starts with
  | nil =>
    intro R F hR h
    simp only [List.foldlM_nil] at h
    cases h
    exact ⟨hR, fun x => by simp [MapReachable]⟩
  | cons s ss ih =>
    intro R F hR h
    rw [List.foldlM_cons] at h
    cases hstep : dfsLoop m d R [s] with
    | error e =>
      rw [hstep] at h
      cases h
    | ok R1 =>
      rw [hstep] at h
      have hspec := dfs_run_spec m d hR hstep
      rcases ih R1 F hspec.1 h with ⟨hcF, hiff⟩
      refine ⟨hcF, fun x => ?_⟩
      rw [hiff, hspec.2 x]
      simp only [MapReachable, List.mem_cons]
      constructor
      · rintro ((hx | hr) | ⟨t, ht, hr⟩)
        · exact Or.inl hx
        · exact Or.inr ⟨s, Or.inl rfl, hr⟩
        · exact Or.inr ⟨t, Or.inr ht, hr⟩
      · rintro (hx | ⟨t, rfl | ht, hr⟩)
        · exact Or.inl (Or.inl hx)
        · exact Or.inl (Or.inr hr)
        · exact Or.inr ⟨t, ht, hr⟩

theorem traverse_spec (m : NodeMap) (d : Direction) {starts F : List String}
    (h : traverse m d starts = .ok F) :
    ClosedList m d F ∧ ∀ x, x ∈ F ↔ MapReachable m d starts x := by
  have hnil : ClosedList m d [] := by
    intro x hx
    cases hx
  rcases traverse_go_spec m d starts [] F hnil h with ⟨hc, hiff⟩
  refine ⟨hc, fun x => ?_⟩
  rw [hiff x]
  simp

theorem traverse_total (m : NodeMap) (d : Direction) (hc : ClosedMap m d)
    {starts : List String} (hs : ∀ s ∈ starts, s ∈ odKeys m) :
    ∃ F, traverse m d starts = .ok F := by
  suffices h : ∀ (l : List String), (∀ s ∈ l, s ∈ odKeys m) → ∀ R,
      ∃ F, l.foldlM (fun result s => dfsLoop m d result [s]) R = .ok F by
    exact h starts hs []
  intro l
  induction l with
  | nil =>
    intro _ R
    exact ⟨R, rfl⟩
  | cons s ss ih =>
    intro hl R
    rcases dfsLoop_total m d hc R [s]
      (by intro x hx; rcases List.mem_cons.mp hx with rfl | h2
          · exact hl x (List.mem_cons_self _ _)
          · cases h2) with ⟨R1, h1⟩
    rcases ih (fun x hx => hl x (List.mem_cons_of_mem _ hx)) R1 with ⟨F, hF⟩
    refine ⟨F, ?_⟩
    rw [List.foldlM_cons, h1]
    exact hF

/-! ### Ordered-dict lemmas -/

theorem mem_odInsert {m : NodeMap} {k : String} {v : PipelineNode} {q : String × PipelineNode}
    (h : q ∈ odInsert m k v) : q ∈ m ∨ q = (k, v) := by
  unfold odInsert at h
  by_cases hany : m.any (fun r => r.1 == k)
  · rw [if_pos hany] at h
    rcases List.mem_map.mp h with ⟨r, hr, hq⟩
    by_cases hk : r.1 == k
    · rw [if_pos hk] at hq
      exact Or.inr hq.symm
    · rw [if_neg hk] at hq
      exact Or.inl (hq ▸ hr)
  · rw [if_neg hany] at h
    rcases List.mem_append.mp h with h1 | h1
    · exact Or.inl h1
    · simp only [List.mem_singleton] at h1
      exact Or.inr h1

theorem mem_odKeys_odInsert (m : NodeMap) (k : String) (v : PipelineNode) (x : String) :
    x ∈ odKeys (odInsert m k v) ↔ x ∈ odKeys m ∨ x = k := by
  unfold odInsert odKeys
  by_cases hany : m.any (fun r => r.1 == k)
  · rw [if_pos hany]
    have hkeys : (m.map (fun q => if q.1 == k then (k, v) else q)).map Prod.fst
        = m.map Prod.fst := by
      rw [List.map_map]
      apply List.map_congr_left
      intro q _
      by_cases hk : q.1 == k
      · simp only [Function.comp_apply, if_pos hk]
        exact (eq_of_beq hk).symm
      · simp only [Function.comp_apply, if_neg hk]
    rw [hkeys]
    constructor
    · exact Or.inl
    · rintro (h | rfl)
      · exact h
      · rcases List.any_eq_true.mp hany with ⟨r, hr, hrk⟩
        exact (eq_of_beq hrk) ▸ List.mem_map_of_mem Prod.fst hr
  · rw [if_neg hany]
    simp

theorem odInsert_fresh {m : NodeMap} {k : String} (v : PipelineNode) (h : k ∉ odKeys m) :
    odInsert m k v = m ++ [(k, v)] := by
  unfold odInsert
  rw [if_neg]
  intro hany
  rcases List.any_eq_true.mp hany with ⟨r, hr, hrk⟩
  exact h ((eq_of_beq hrk) ▸ List.mem_map_of_mem Prod.fst hr)

theorem nodup_keys_lookup {m : NodeMap} (hnd : (odKeys m).Nodup)
    {x : String} {n : PipelineNode} (h : (x, n) ∈ m) : odLookup m x = some n := by
  induction m with
  | nil => cases h
  | cons q rest ih =>
    rcases List.mem_cons.mp h with rfl | htail
    · simp [odLookup]
    · have hx : x ∈ odKeys rest := List.mem_map_of_mem Prod.fst htail
      have hq1 : q.1 ≠ x := by
        intro hq
        have : q.1 ∈ odKeys rest := hq ▸ hx
        exact (List.nodup_cons.mp hnd).1 this
      have := ih (List.nodup_cons.mp hnd).2 htail
      simpa [odLookup, List.find?_cons, hq1] using this

/-! ### The node map of a pipeline -/

theorem make_map_keys_aux :
    ∀ (l : List PipelineOrNode) (acc : NodeMap) (x : String),
      x ∈ odKeys (l.foldl (fun m pn => odInsert m pn.getNode.node_id pn.getNode) acc)
        ↔ x ∈ odKeys acc ∨ x ∈ l.map (fun pn => pn.getNode.node_id) := by
  intro l
  induction l with
  | nil =>
    intro acc x
    simp
  | cons pn rest ih =>
    intro acc x
    simp only [List.foldl_cons, List.map_cons, List.mem_cons]
    rw [ih, mem_odKeys_odInsert]
    tauto

theorem mem_keys_make_map (p : Pipeline) (x : String) :
    x ∈ odKeys (make_ordered_node_map p) ↔ x ∈ NodeIds p := by
  unfold make_ordered_node_map NodeIds
  rw [make_map_keys_aux]
  simp [odKeys]

theorem make_map_entry_aux :
    ∀ (l : List PipelineOrNode) (acc : NodeMap) (q : String × PipelineNode),
      q ∈ l.foldl (fun m pn => odInsert m pn.getNode.node_id pn.getNode) acc →
      q ∈ acc ∨ ∃ pn ∈ l, q = (pn.getNode.node_id, pn.getNode) := by
  intro l
  induction l with
  | nil =>
    intro acc q h
    exact Or.inl h
  | cons pn rest ih =>
    intro acc q h
    rcases ih _ q h with h1 | ⟨pn', hpn', hq⟩
    · rcases mem_odInsert h1 with h2 | h2
      · exact Or.inl h2
      · exact Or.inr ⟨pn, List.mem_cons_self _ _, h2⟩
    · exact Or.inr ⟨pn', List.mem_cons_of_mem _ hpn', hq⟩

theorem make_map_entry {p : Pipeline} {q : String × PipelineNode}
    (h : q ∈ make_ordered_node_map p) :
    ∃ pn ∈ p.nodes, q = (pn.getNode.node_id, pn.getNode) := by
  rcases make_map_entry_aux p.nodes [] q h with h1 | h1
  · cases h1
  · exact h1

theorem make_map_go :
    ∀ (l : List PipelineOrNode) (acc : NodeMap),
      (l.map (fun pn => pn.getNode.node_id)).Nodup →
      (∀ k ∈ l.map (fun pn => pn.getNode.node_id), k ∉ odKeys acc) →
      l.foldl (fun m pn => odInsert m pn.getNode.node_id pn.getNode) acc
        = acc ++ l.map (fun pn => (pn.getNode.node_id, pn.getNode)) := by
  intro l
  induction l with
  | nil =>
    intro acc _ _
    simp
  | cons pn rest ih =>
    intro acc hnd hdisj
    have hnd' : pn.getNode.node_id ∉ rest.map (fun pn => pn.getNode.node_id)
        ∧ (rest.map (fun pn => pn.getNode.node_id)).Nodup := List.nodup_cons.mp hnd
    simp only [List.foldl_cons, List.map_cons]
    rw [odInsert_fresh pn.getNode (hdisj _ (by simp))]
    rw [ih (acc ++ [(pn.getNode.node_id, pn.getNode)]) hnd'.2 ?_]
    · simp
    · intro k hk hmem
      rw [odKeys, List.map_append] at hmem
      rcases List.mem_append.mp hmem with h1 | h1
      · exact hdisj k (List.mem_cons_of_mem _ hk) h1
      · simp only [List.map_cons, List.map_nil, List.mem_singleton] at h1
        exact hnd'.1 (h1 ▸ hk)

theorem make_map_eq_pairs {p : Pipeline} (hnd : (NodeIds p).Nodup) :
    make_ordered_node_map p = pairsOf p := by
  unfold make_ordered_node_map pairsOf
  rw [make_map_go p.nodes [] (by simpa [NodeIds] using hnd) (by simp [odKeys])]
  simp

theorem odKeys_pairsOf (p : Pipeline) : odKeys (pairsOf p) = NodeIds p := by
  simp [odKeys, pairsOf, NodeIds, List.map_map, Function.comp_def]

/-! ### The topological-sort check -/

theorem sortedLoop_ok_iff (d : Direction) :
    ∀ (l : List PipelineOrNode) (visited : List String),
      sortedLoop d l visited = .ok () ↔
      ∀ i : Fin l.length, ∀ u ∈ dirList d (l.get i).getNode,
        u ∈ visited ∨ u ∈ (l.take i).map (fun pn => pn.getNode.node_id) := by
  intro l
  induction l with
  | nil =>
    intro visited
    constructor
    · intro _ i
      exact absurd i.isLt (by simp)
    · intro _
      rfl
  | cons pn rest ih =>
    intro visited
    rw [sortedLoop]
    cases hfind : (dirList d pn.getNode).find? (fun u => !(decide (u ∈ visited))) with
    | some u =>
      simp only [hfind]
      constructor
      · intro h
        cases h
      · intro hall
        exfalso
        have hmem := List.mem_of_find?_eq_some hfind
        have hu : u ∉ visited := by simpa using List.find?_some hfind
        have h0 := hall ⟨0, by simp⟩ u (by simpa using hmem)
        simp only [List.take_zero, List.map_nil, List.not_mem_nil, or_false] at h0
        exact hu h0
    | none =>
      simp only [hfind]
      rw [ih]
      have hvis : ∀ u ∈ dirList d pn.getNode, u ∈ visited := by
        intro u hu
        have := List.find?_eq_none.mp hfind u hu
        simpa using this
      constructor
      · intro h i u hu
        rcases i with ⟨iv, hi⟩
        cases iv with
        | zero =>
          exact Or.inl (hvis u (by simpa using hu))
        | succ j =>
          have hj : j < rest.length := by simpa using hi
          have := h ⟨j, hj⟩ u (by simpa using hu)
          rcases this with h1 | h1
          · rcases List.mem_cons.mp h1 with rfl | h2
            · exact Or.inr (by simp)
            · exact Or.inl h2
          · refine Or.inr ?_
            simp only [List.take_succ_cons, List.map_cons, List.mem_cons]
            exact Or.inr h1
      · intro h i u hu
        rcases i with ⟨j, hj⟩
        have hj' : j + 1 < (pn :: rest).length := by simpa using hj
        have := h ⟨j + 1, hj'⟩ u (by simpa using hu)
        rcases this with h1 | h1
        · exact Or.inl (List.mem_cons_of_mem _ h1)
        · simp only [List.take_succ_cons, List.map_cons, List.mem_cons] at h1
          rcases h1 with rfl | h2
          · exact Or.inl (List.mem_cons_self _ _)
          · exact Or.inr h2

/-- Forward (upstream) topological-order property: every upstream id of the
node at position `i` is the id of a strictly earlier node. -/
def SortedForm (d : Direction) (l : List PipelineOrNode) : Prop :=
  ∀ i : Fin l.length, ∀ u ∈ dirList d (l.get i).getNode,
    u ∈ (l.take i).map (fun pn => pn.getNode.node_id)

/-- Backward (downstream) topological-order property: every direction-`d`
neighbor id of the node at position `i` is the id of a strictly later node. -/
def DropForm (d : Direction) (l : List PipelineOrNode) : Prop :=
  ∀ i : Fin l.length, ∀ u ∈ dirList d (l.get i).getNode,
    u ∈ (l.drop (i + 1)).map (fun pn => pn.getNode.node_id)

/-- Every upstream id appears earlier in the node sequence. -/
def UpstreamSorted (p : Pipeline) : Prop := SortedForm .UPSTREAM p.nodes

/-- Every downstream id appears later in the node sequence. -/
def DownstreamSorted (p : Pipeline) : Prop := DropForm .DOWNSTREAM p.nodes

theorem mem_map_take_iff (f : PipelineOrNode → String) (l : List PipelineOrNode)
    (j : Nat) (u : String) :
    u ∈ (l.take j).map f ↔ ∃ k, ∃ hk : k < l.length, k < j ∧ f (l.get ⟨k, hk⟩) = u := by
  rw [List.mem_map]
  constructor
  · rintro ⟨a, ha, rfl⟩
    rw [List.mem_take_iff_getElem] at ha
    rcases ha with ⟨k, hk, hpk⟩
    have hk1 : k < l.length := by omega
    have hk2 : k < j := by omega
    exact ⟨k, hk1, hk2, by rw [List.get_eq_getElem, hpk]⟩
  · rintro ⟨k, hk, hkj, rfl⟩
    refine ⟨l.get ⟨k, hk⟩, ?_, rfl⟩
    rw [List.mem_take_iff_getElem]
    exact ⟨k, by omega, by rw [List.get_eq_getElem]⟩

theorem mem_map_drop_iff (f : PipelineOrNode → String) (l : List PipelineOrNode)
    (j : Nat) (u : String) :
    u ∈ (l.drop j).map f ↔ ∃ k, ∃ hk : k < l.length, j ≤ k ∧ f (l.get ⟨k, hk⟩) = u := by
  rw [List.mem_map]
  constructor
  · rintro ⟨a, ha, rfl⟩
    rw [List.mem_drop_iff_getElem] at ha
    rcases ha with ⟨i, hi, hpk⟩
    have hk1 : j + i < l.length := by omega
    refine ⟨j + i, hk1, by omega, by rw [List.get_eq_getElem, hpk]⟩
  · rintro ⟨k, hk, hkj, rfl⟩
    refine ⟨l.get ⟨k, hk⟩, ?_, rfl⟩
    rw [List.mem_drop_iff_getElem]
    refine ⟨k - j, by omega, ?_⟩
    rw [List.get_eq_getElem]
    congr 1
    show j + (k - j) = k
    omega

theorem reverse_get_eq (l : List PipelineOrNode) (k : Nat) (hk : k < l.reverse.length)
    (hk' : l.length - 1 - k < l.length) :
    l.reverse.get ⟨k, hk⟩ = l.get ⟨l.length - 1 - k, hk'⟩ := by
  simp [List.get_eq_getElem, List.getElem_reverse]

theorem sortedForm_reverse_iff (d : Direction) (l : List PipelineOrNode) :
    SortedForm d l.reverse ↔ DropForm d l := by
  unfold SortedForm DropForm
  constructor
  · intro h i u hu
    rcases i with ⟨iv, hi⟩
    have hj : l.length - 1 - iv < l.reverse.length := by
      simp only [List.length_reverse]
      omega
    have hivb : l.length - 1 - (l.length - 1 - iv) < l.length := by omega
    have hget : l.reverse.get ⟨l.length - 1 - iv, hj⟩ = l.get ⟨iv, hi⟩ := by
      rw [reverse_get_eq l _ hj hivb]
      congr 1
      simp only [Fin.mk.injEq]
      omega
    have hres := h ⟨l.length - 1 - iv, hj⟩ u (by rw [hget]; exact hu)
    rw [mem_map_take_iff] at hres
    rw [mem_map_drop_iff]
    rcases hres with ⟨k, hk, hkj, hku⟩
    have hkj' : k < l.length - 1 - iv := hkj
    simp only [List.length_reverse] at hk
    have hkr : k < l.reverse.length := by simp only [List.length_reverse]; omega
    have hkb : l.length - 1 - k < l.length := by omega
    refine ⟨l.length - 1 - k, hkb, ?_, ?_⟩
    · show iv + 1 ≤ l.length - 1 - k
      omega
    · rw [← hku]
      congr 1
      rw [reverse_get_eq l k hkr hkb]
  · intro h i u hu
    rcases i with ⟨iv, hi⟩
    have hi' : iv < l.length := by simpa using hi
    have hIdx : l.length - 1 - iv < l.length := by omega
    have hget : l.reverse.get ⟨iv, hi⟩ = l.get ⟨l.length - 1 - iv, hIdx⟩ :=
      reverse_get_eq l iv hi hIdx
    have hres := h ⟨l.length - 1 - iv, hIdx⟩ u (by rw [← hget]; exact hu)
    rw [mem_map_drop_iff] at hres
    rw [mem_map_take_iff]
    rcases hres with ⟨k, hk, hkj, hku⟩
    have hkj' : l.length - 1 - iv + 1 ≤ k := hkj
    have hkr : l.length - 1 - k < l.reverse.length := by
      simp only [List.length_reverse]
      omega
    have hkb : l.length - 1 - (l.length - 1 - k) < l.length := by omega
    refine ⟨l.length - 1 - k, by simpa using hkr, ?_, ?_⟩
    · show l.length - 1 - k < iv
      omega
    · rw [← hku]
      congr 1
      rw [reverse_get_eq l _ hkr hkb]
      have hidx : (⟨l.length - 1 - (l.length - 1 - k), hkb⟩ : Fin l.length) = ⟨k, hk⟩ := by
        apply Fin.ext
        show l.length - 1 - (l.length - 1 - k) = k
        omega
      rw [hidx]

theorem ensure_topologically_sorted_ok_iff (p : Pipeline) :
    ensure_topologically_sorted p = .ok () ↔ UpstreamSorted p ∧ DownstreamSorted p := by
  have hup_iff : sortedLoop .UPSTREAM p.nodes [] = .ok () ↔ UpstreamSorted p := by
    rw [sortedLoop_ok_iff]
    unfold UpstreamSorted SortedForm
    constructor
    · intro h i u hu
      rcases h i u hu with h1 | h1
      · cases h1
      · exact h1
    · intro h i u hu
      exact Or.inr (h i u hu)
  have hdn_iff : sortedLoop .DOWNSTREAM p.nodes.reverse [] = .ok () ↔ DownstreamSorted p := by
    rw [sortedLoop_ok_iff]
    unfold DownstreamSorted
    rw [← sortedForm_reverse_iff]
    unfold SortedForm
    constructor
    · intro h i u hu
      rcases h i u hu with h1 | h1
      · cases h1
      · exact h1
    · intro h i u hu
      exact Or.inr (h i u hu)
  unfold ensure_topologically_sorted
  cases hup : sortedLoop .UPSTREAM p.nodes [] with
  | error e =>
    constructor
    · intro h
      cases h
    · rintro ⟨h1, _⟩
      rw [← hup_iff, hup] at h1
      cases h1
  | ok u =>
    cases u
    have hU : UpstreamSorted p := hup_iff.mp hup
    show sortedLoop .DOWNSTREAM p.nodes.reverse [] = .ok () ↔ _
    constructor
    · intro h
      exact ⟨hU, hdn_iff.mp h⟩
    · intro h
      exact hdn_iff.mpr h.2

/-! ### Validity of an input pipeline -/

/-- A valid compiled Pipeline IR, per the data-model invariants: SYNC
execution mode, no sub-pipeline nodes, unique node ids, and a node
sequence topologically sorted in both directions. -/
structure ValidPipeline (p : Pipeline) : Prop where
  sync : p.execution_mode = ExecutionMode.SYNC
  no_sub : ∀ pn ∈ p.nodes, pn.isSubPipeline = false
  nodup : (NodeIds p).Nodup
  up_sorted : UpstreamSorted p
  down_sorted : DownstreamSorted p

theorem ensure_sync_ok_iff (p : Pipeline) :
    ensure_sync_pipeline p = .ok () ↔ p.execution_mode = ExecutionMode.SYNC := by
  unfold ensure_sync_pipeline
  by_cases h : p.execution_mode = ExecutionMode.SYNC <;> simp [h]

theorem ensure_no_sub_ok_iff (p : Pipeline) :
    ensure_no_subpipeline_nodes p = .ok () ↔ ∀ pn ∈ p.nodes, pn.isSubPipeline = false := by
  unfold ensure_no_subpipeline_nodes
  cases hf : p.nodes.find? (fun pn => pn.isSubPipeline) with
  | some pn =>
    constructor
    · intro h
      cases h
    · intro h
      exfalso
      have h1 := List.find?_some hf
      have h2 := List.mem_of_find?_eq_some hf
      rw [h pn h2] at h1
      cases h1
  | none =>
    constructor
    · intro _ pn hpn
      have := List.find?_eq_none.mp hf pn hpn
      simpa using this
    · intro _
      rfl

theorem sortedForm_subset {d : Direction} {l : List PipelineOrNode} (h : SortedForm d l) :
    ∀ pn ∈ l, ∀ u ∈ dirList d pn.getNode, u ∈ l.map (fun pn => pn.getNode.node_id) := by
  intro pn hpn u hu
  rcases List.mem_iff_get.mp hpn with ⟨i, rfl⟩
  have hres := h i u hu
  rw [mem_map_take_iff] at hres
  rcases hres with ⟨k, hk, _, hku⟩
  exact hku ▸ List.mem_map_of_mem _ (List.get_mem l k hk)

theorem dropForm_subset {d : Direction} {l : List PipelineOrNode} (h : DropForm d l) :
    ∀ pn ∈ l, ∀ u ∈ dirList d pn.getNode, u ∈ l.map (fun pn => pn.getNode.node_id) := by
  intro pn hpn u hu
  rcases List.mem_iff_get.mp hpn with ⟨i, rfl⟩
  have hres := h i u hu
  rw [mem_map_drop_iff] at hres
  rcases hres with ⟨k, hk, _, hku⟩
  exact hku ▸ List.mem_map_of_mem _ (List.get_mem l k hk)

theorem make_map_closed (p : Pipeline) (d : Direction)
    (hsub : ∀ pn ∈ p.nodes, ∀ u ∈ dirList d pn.getNode, u ∈ NodeIds p) :
    ClosedMap (make_ordered_node_map p) d := by
  intro x n hl y hy
  rcases make_map_entry (lookup_mem hl) with ⟨pn, hpn, heq⟩
  have hn : n = pn.getNode := congrArg Prod.snd heq
  rw [mem_keys_make_map]
  exact hsub pn hpn y (hn ▸ hy)

theorem valid_up_closed {p : Pipeline} (hv : ValidPipeline p) :
    ClosedMap (make_ordered_node_map p) .UPSTREAM :=
  make_map_closed p .UPSTREAM (sortedForm_subset hv.up_sorted)

theorem valid_down_closed {p : Pipeline} (hv : ValidPipeline p) :
    ClosedMap (make_ordered_node_map p) .DOWNSTREAM :=
  make_map_closed p .DOWNSTREAM (dropForm_subset hv.down_sorted)

theorem mapEdge_iff_pipelineEdge {p : Pipeline} (hnd : (NodeIds p).Nodup)
    (d : Direction) (x y : String) :
    mapEdge (pairsOf p) d x y ↔ pipelineEdge p d x y := by
  constructor
  · rintro ⟨n, hl, hy⟩
    rcases List.mem_map.mp (lookup_mem hl) with ⟨pn, hpn, heq⟩
    have hx : pn.getNode.node_id = x := congrArg Prod.fst heq
    have hn : pn.getNode = n := congrArg Prod.snd heq
    exact ⟨pn, hpn, hx, hn ▸ hy⟩
  · rintro ⟨pn, hpn, rfl, hy⟩
    have hentry : (pn.getNode.node_id, pn.getNode) ∈ pairsOf p :=
      List.mem_map_of_mem _ hpn
    have hl := nodup_keys_lookup (by rw [odKeys_pairsOf]; exact hnd) hentry
    exact ⟨pn.getNode, hl, hy⟩

theorem mapReach_iff_pipeReach {p : Pipeline} (hnd : (NodeIds p).Nodup)
    (d : Direction) (starts : List String) (x : String) :
    MapReachable (pairsOf p) d starts x ↔ PipeReachable p d starts x := by
  unfold MapReachable PipeReachable
  refine exists_congr fun s => and_congr_right fun _ => ?_
  constructor
  · intro h
    exact Relation.ReflTransGen.mono (fun a b hab =>
      (mapEdge_iff_pipelineEdge hnd d a b).mp hab) h
  · intro h
    exact Relation.ReflTransGen.mono (fun a b hab =>
      (mapEdge_iff_pipelineEdge hnd d a b).mpr hab) h

/-! ### The retained node map -/

theorem exceptBind_ok {α β γ : Type} (a : α) (f : α → Except γ β) :
    (Except.ok a >>= f : Except γ β) = f a := rfl

theorem exceptPure_eq_ok {α γ : Type} (a : α) : (pure a : Except γ α) = .ok a := rfl

theorem foldl_filter_odInsert (anc desc : List String) :
    ∀ (l : NodeMap) (acc : NodeMap),
      (odKeys l).Nodup → (∀ k ∈ odKeys l, k ∉ odKeys acc) →
      l.foldl (fun result q =>
        if q.1 ∈ anc ∧ q.1 ∈ desc then odInsert result q.1 q.2 else result) acc
        = acc ++ l.filter (fun q => decide (q.1 ∈ anc ∧ q.1 ∈ desc)) := by
  intro l
  induction l with
  | nil =>
    intro acc _ _
    simp
  | cons q rest ih =>
    intro acc hnd hdisj
    have hnd' : q.1 ∉ odKeys rest ∧ (odKeys rest).Nodup := List.nodup_cons.mp hnd
    simp only [List.foldl_cons]
    by_cases hq : q.1 ∈ anc ∧ q.1 ∈ desc
    · rw [if_pos hq, odInsert_fresh q.2 (hdisj q.1 (by simp [odKeys]))]
      rw [ih (acc ++ [q]) hnd'.2 ?_]
      · rw [List.filter_cons]
        simp [hq]
      · intro k hk hmem
        rw [odKeys, List.map_append] at hmem
        rcases List.mem_append.mp hmem with h1 | h1
        · exact hdisj k (List.mem_cons_of_mem _ hk) h1
        · simp only [List.map_cons, List.map_nil, List.mem_singleton] at h1
          exact hnd'.1 (h1 ▸ hk)
    · rw [if_neg hq]
      rw [ih acc hnd'.2 (fun k hk => hdisj k (List.mem_cons_of_mem _ hk))]
      rw [List.filter_cons]
      simp [hq]

theorem filter_node_map_ok {m : NodeMap} (hnd : (odKeys m).Nodup)
    {fids tids anc desc : List String}
    (ha : traverse m .UPSTREAM tids = .ok anc)
    (hd : traverse m .DOWNSTREAM fids = .ok desc) :
    filter_node_map m fids tids
      = .ok (m.filter (fun q => decide (q.1 ∈ anc ∧ q.1 ∈ desc))) := by
  unfold filter_node_map
  rw [ha, exceptBind_ok, hd, exceptBind_ok, exceptPure_eq_ok]
  rw [foldl_filter_odInsert anc desc m [] hnd (by simp [odKeys])]
  simp

/-! ### Node repair: closed forms -/

/-- Closed form of the two per-node repairs: the upstream and downstream id
lists restricted (in order) to retained ids, every other field untouched. -/
def fixNode (n : PipelineNode) (keep : List String) : PipelineNode :=
  { n with
    upstream_nodes := n.upstream_nodes.filter (fun u => decide (u ∈ keep))
    downstream_nodes := n.downstream_nodes.filter (fun dn => decide (dn ∈ keep)) }

theorem remove_dangling_eq (n : PipelineNode) (keep : List String) :
    remove_dangling_downstream_nodes n keep
      = { n with downstream_nodes :=
            n.downstream_nodes.filter (fun dn => decide (dn ∈ keep)) } := by
  unfold remove_dangling_downstream_nodes
  by_cases h : (n.downstream_nodes.filter (fun dn => decide (dn ∈ keep))).length
      = n.downstream_nodes.length
  · rw [if_pos h]
    have hself : n.downstream_nodes.filter (fun dn => decide (dn ∈ keep))
        = n.downstream_nodes := List.filter_eq_self.mpr (List.filter_length_eq_length.mp h)
    rw [hself]
  · rw [if_neg h]

theorem handle_missing_fst (n : PipelineNode) (keep : List String) :
    (handle_missing_inputs n keep).1
      = { n with upstream_nodes :=
            n.upstream_nodes.filter (fun u => decide (u ∈ keep)) } := by
  unfold handle_missing_inputs
  by_cases h : (n.upstream_nodes.filter (fun u => !(decide (u ∈ keep)))).isEmpty
  · simp only [h, if_true]
    have hall : ∀ u ∈ n.upstream_nodes, u ∈ keep := by
      intro u hu
      by_contra hk
      have hmem : u ∈ n.upstream_nodes.filter (fun u => !(decide (u ∈ keep))) :=
        List.mem_filter.mpr ⟨hu, by simp [hk]⟩
      rw [List.isEmpty_iff.mp h] at hmem
      cases hmem
    have hself : n.upstream_nodes.filter (fun u => decide (u ∈ keep))
        = n.upstream_nodes := List.filter_eq_self.mpr (fun a ha => by simp [hall a ha])
    rw [hself]
  · simp [h]

/-! ### Channel-map lemmas -/

theorem mdAppend_eq_mdExtend (m : ChannelMap) (k : String) (c : Channel) :
    mdAppend m k c = mdExtend m k [c] := rfl

theorem cmLookup_mdExtend (m : ChannelMap) (k : String) (cs : List Channel) (pid : String) :
    cmLookup (mdExtend m k cs) pid
      = if pid = k then cmLookup m k ++ cs else cmLookup m pid := by
  unfold mdExtend cmLookup
  by_cases hany : m.any (fun q => q.1 == k)
  · rw [if_pos hany, List.find?_map]
    have hcomp : ((fun q => q.1 == pid) ∘ fun q =>
        if q.1 == k then (q.1, q.2 ++ cs) else q)
        = fun (q : String × List Channel) => q.1 == pid := by
      funext q
      by_cases hq : q.1 = k <;> simp [hq]
    rw [hcomp]
    cases hfind : m.find? (fun q => q.1 == pid) with
    | none =>
      by_cases hpk : pid = k
      · exfalso
        rcases List.any_eq_true.mp hany with ⟨q, hq, hqk⟩
        have hnone := List.find?_eq_none.mp hfind q hq
        rw [hpk] at hnone
        exact hnone hqk
      · simp [hpk]
    | some q0 =>
      have hq0 : q0.1 = pid := by simpa using List.find?_some hfind
      by_cases hpk : pid = k
      · subst hpk
        simp [hfind, hq0]
      · have hq0k : ¬(q0.1 = k) := fun hh => hpk (hq0.symm.trans hh)
        simp [hfind, hq0k, hpk]
  · rw [if_neg hany, List.find?_append]
    have hmnone : m.find? (fun q => q.1 == k) = none := by
      rw [List.find?_eq_none]
      intro q hq hqk
      exact hany (List.any_eq_true.mpr ⟨q, hq, hqk⟩)
    by_cases hpk : pid = k
    · subst hpk
      rw [hmnone]
      simp
    · have hkp : ¬(((k, cs).1 == pid) = true) := fun hh => hpk (eq_of_beq hh).symm
      rw [List.find?_singleton, if_neg hkp, if_neg hpk]
      cases m.find? (fun q => q.1 == pid) <;> simp

theorem cmLookup_mdAppend (m : ChannelMap) (k : String) (c : Channel) (pid : String) :
    cmLookup (mdAppend m k c) pid
      = if pid = k then cmLookup m k ++ [c] else cmLookup m pid := by
  rw [mdAppend_eq_mdExtend, cmLookup_mdExtend]

theorem cmLookup_nil (pid : String) : cmLookup [] pid = [] := rfl

/-- All channels of all input specs of a node, in spec-then-channel order. -/
def allInputChannels (n : PipelineNode) : List Channel :=
  (n.inputs.map (fun input_spec => input_spec.2.channels)).flatten

/-- Concatenation of every list stored under key `pid` in a channel map. -/
def cmAll (mm : ChannelMap) (pid : String) : List Channel :=
  ((mm.filter (fun r => r.1 == pid)).map Prod.snd).flatten

theorem cmAll_eq_cmLookup {mm : ChannelMap} (hnd : (mm.map Prod.fst).Nodup) (pid : String) :
    cmAll mm pid = cmLookup mm pid := by
  induction mm with
  | nil => rfl
  | cons r rest ih =>
    have hnd' : r.1 ∉ rest.map Prod.fst ∧ (rest.map Prod.fst).Nodup := List.nodup_cons.mp hnd
    by_cases hp : r.1 = pid
    · have hrestnil : rest.filter (fun q => q.1 == pid) = [] := by
        rw [List.filter_eq_nil_iff]
        intro q hq hqp
        exact hnd'.1 (hp ▸ (eq_of_beq hqp) ▸ List.mem_map_of_mem Prod.fst hq)
      unfold cmAll cmLookup
      rw [List.filter_cons, List.find?_cons_of_pos _ (by simp [hp])]
      simp [hp, hrestnil]
    · have hbeq : (r.1 == pid) = false := by
        simp only [beq_eq_false_iff_ne, ne_eq]
        exact hp
      unfold cmAll cmLookup at ih ⊢
      simp only [List.filter_cons, hbeq, Bool.false_eq_true, if_false]
      rw [show List.find? (fun q => q.1 == pid) (r :: rest)
          = List.find? (fun q => q.1 == pid) rest from by simp [hbeq]]
      exact ih hnd'.2

theorem mdExtend_keys (mm : ChannelMap) (k : String) (cs : List Channel)
    (hnd : (mm.map Prod.fst).Nodup) : ((mdExtend mm k cs).map Prod.fst).Nodup := by
  unfold mdExtend
  by_cases hany : mm.any (fun q => q.1 == k)
  · rw [if_pos hany]
    have hkeys : ((mm.map (fun q => if q.1 == k then (q.1, q.2 ++ cs) else q)).map Prod.fst)
        = mm.map Prod.fst := by
      rw [List.map_map]
      apply List.map_congr_left
      intro q _
      by_cases hq : q.1 = k <;> simp [hq]
    rw [hkeys]
    exact hnd
  · rw [if_neg hany]
    rw [List.map_append]
    apply List.Nodup.append hnd (by simp)
    intro a ha hb
    simp only [List.map_cons, List.map_nil, List.mem_singleton] at hb
    subst hb
    rcases List.mem_map.mp ha with ⟨q, hq, hqk⟩
    exact hany (List.any_eq_true.mpr ⟨q, hq, by simp [hqk]⟩)

theorem mdAppend_keys (mm : ChannelMap) (k : String) (c : Channel)
    (hnd : (mm.map Prod.fst).Nodup) : ((mdAppend mm k c).map Prod.fst).Nodup := by
  rw [mdAppend_eq_mdExtend]
  exact mdExtend_keys mm k [c] hnd

theorem chanFold_keys (removed : List String) :
    ∀ (cs : List Channel) (acc : ChannelMap), (acc.map Prod.fst).Nodup →
      ((cs.foldl (fun a c =>
        if c.producer_id ∈ removed then mdAppend a c.producer_id c else a) acc).map
          Prod.fst).Nodup := by
  intro cs
  induction cs with
  | nil =>
    intro acc h
    exact h
  | cons c rest ih =>
    intro acc h
    simp only [List.foldl_cons]
    by_cases hc : c.producer_id ∈ removed
    · rw [if_pos hc]
      exact ih _ (mdAppend_keys acc c.producer_id c h)
    · rw [if_neg hc]
      exact ih _ h

theorem collect_keys_nodup (n : PipelineNode) (removed : List String) :
    ((collectOrphanChannels n removed).map Prod.fst).Nodup := by
  unfold collectOrphanChannels
  suffices h : ∀ (specs : List (String × InputSpec)) (acc : ChannelMap),
      (acc.map Prod.fst).Nodup →
      ((specs.foldl (fun acc input_spec =>
        input_spec.2.channels.foldl (fun acc2 channel =>
          if channel.producer_id ∈ removed then mdAppend acc2 channel.producer_id channel
          else acc2) acc) acc).map Prod.fst).Nodup by
    exact h n.inputs [] (by simp)
  intro specs
  induction specs with
  | nil =>
    intro acc h
    exact h
  | cons s rest ih =>
    intro acc h
    simp only [List.foldl_cons]
    exact ih _ (chanFold_keys removed s.2.channels acc h)

theorem cmLookup_chanFold (removed : List String) (pid : String) :
    ∀ (cs : List Channel) (acc : ChannelMap),
      cmLookup (cs.foldl (fun a c =>
        if c.producer_id ∈ removed then mdAppend a c.producer_id c else a) acc) pid
        = cmLookup acc pid
          ++ cs.filter (fun c => c.producer_id == pid && decide (pid ∈ removed)) := by
  intro cs
  induction cs with
  | nil =>
    intro acc
    simp
  | cons c rest ih =>
    intro acc
    simp only [List.foldl_cons]
    by_cases hc : c.producer_id ∈ removed
    · rw [if_pos hc, ih, cmLookup_mdAppend]
      by_cases hcp : c.producer_id = pid
      · rw [if_pos hcp.symm, List.filter_cons]
        have hcond : (c.producer_id == pid && decide (pid ∈ removed)) = true := by
          simp [hcp, hcp ▸ hc]
        rw [hcond]
        simp only [if_true]
        rw [hcp]
        simp
      · rw [if_neg (fun hh => hcp hh.symm), List.filter_cons]
        have hcond : (c.producer_id == pid && decide (pid ∈ removed)) = false := by
          simp [hcp]
        rw [hcond]
        simp
    · rw [if_neg hc, ih, List.filter_cons]
      have hcond : (c.producer_id == pid && decide (pid ∈ removed)) = false := by
        by_cases hcp : c.producer_id = pid
        · simp [hcp ▸ hc]
        · simp [hcp]
      rw [hcond]
      simp

theorem cmLookup_collect (n : PipelineNode) (removed : List String) (pid : String) :
    cmLookup (collectOrphanChannels n removed) pid
      = (allInputChannels n).filter
          (fun c => c.producer_id == pid && decide (pid ∈ removed)) := by
  unfold collectOrphanChannels allInputChannels
  suffices h : ∀ (specs : List (String × InputSpec)) (acc : ChannelMap),
      cmLookup (specs.foldl (fun acc input_spec =>
        input_spec.2.channels.foldl (fun acc2 channel =>
          if channel.producer_id ∈ removed then mdAppend acc2 channel.producer_id channel
          else acc2) acc) acc) pid
      = cmLookup acc pid
        ++ ((specs.map (fun input_spec => input_spec.2.channels)).flatten).filter
            (fun c => c.producer_id == pid && decide (pid ∈ removed)) by
    rw [h n.inputs []]
    simp [cmLookup_nil]
  intro specs
  induction specs with
  | nil =>
    intro acc
    simp
  | cons s rest ih =>
    intro acc
    simp only [List.foldl_cons, List.map_cons, List.flatten_cons]
    rw [ih, cmLookup_chanFold, List.filter_append, List.append_assoc]

/-- The channels of `n` that the repair reports as orphaned under producer id
`pid`: those whose producer is `pid`, for `pid` listed among `n`'s upstream
ids but not retained. -/
def orphanedOf (n : PipelineNode) (keep : List String) (pid : String) : List Channel :=
  (allInputChannels n).filter
    (fun c => c.producer_id == pid
      && (decide (pid ∈ n.upstream_nodes) && !decide (pid ∈ keep)))

theorem handle_missing_snd (n : PipelineNode) (keep : List String) (pid : String) :
    cmLookup (handle_missing_inputs n keep).2 pid = orphanedOf n keep pid := by
  unfold handle_missing_inputs
  have hremiff : pid ∈ n.upstream_nodes.filter (fun u => !(decide (u ∈ keep)))
      ↔ pid ∈ n.upstream_nodes ∧ ¬(pid ∈ keep) := by
    simp [List.mem_filter]
  by_cases h : (n.upstream_nodes.filter (fun u => !(decide (u ∈ keep)))).isEmpty
  · simp only [h, if_true]
    have hall : ∀ u ∈ n.upstream_nodes, u ∈ keep := by
      intro u hu
      by_contra hk
      have hmem : u ∈ n.upstream_nodes.filter (fun u => !(decide (u ∈ keep))) :=
        List.mem_filter.mpr ⟨hu, by simp [hk]⟩
      rw [List.isEmpty_iff.mp h] at hmem
      cases hmem
    show cmLookup [] pid = _
    rw [cmLookup_nil]
    symm
    rw [orphanedOf, List.filter_eq_nil_iff]
    intro c _
    by_cases hup : pid ∈ n.upstream_nodes
    · simp [hall pid hup]
    · simp [hup]
  · simp only [h, if_false]
    show cmLookup (collectOrphanChannels n _) pid = _
    rw [cmLookup_collect, orphanedOf]
    apply List.filter_congr
    intro c _
    rw [decide_eq_decide.mpr hremiff, Bool.decide_and, decide_not]

theorem handle_missing_snd_keys (n : PipelineNode) (keep : List String) :
    (((handle_missing_inputs n keep).2).map Prod.fst).Nodup := by
  unfold handle_missing_inputs
  by_cases h : (n.upstream_nodes.filter (fun u => !(decide (u ∈ keep)))).isEmpty
  · simp [h]
  · simp only [h, if_false]
    exact collect_keys_nodup n _

theorem cmLookup_extend_fold :
    ∀ (icm : ChannelMap) (acc : ChannelMap) (pid : String),
      cmLookup (icm.foldl (fun mm r => mdExtend mm r.1 r.2) acc) pid
        = cmLookup acc pid ++ cmAll icm pid := by
  intro icm
  induction icm with
  | nil =>
    intro acc pid
    simp [cmAll]
  | cons r rest ih =>
    intro acc pid
    simp only [List.foldl_cons]
    rw [ih, cmLookup_mdExtend]
    unfold cmAll
    by_cases hp : pid = r.1
    · rw [if_pos hp, List.filter_cons]
      have : (r.1 == pid) = true := by simp [hp]
      rw [this]
      simp only [if_true, List.map_cons, List.flatten_cons]
      rw [hp, List.append_assoc]
    · rw [if_neg hp, List.filter_cons]
      have : (r.1 == pid) = false := by simp; exact fun hh => hp hh.symm
      rw [this]
      simp

/-! ### Characterizing `fix_nodes` -/

theorem repair_fst (n : PipelineNode) (K : List String) :
    (handle_missing_inputs (remove_dangling_downstream_nodes n K) K).1 = fixNode n K := by
  rw [remove_dangling_eq, handle_missing_fst]
  rfl

theorem repair_snd (n : PipelineNode) (K : List String) (pid : String) :
    cmLookup (handle_missing_inputs (remove_dangling_downstream_nodes n K) K).2 pid
      = orphanedOf n K pid := by
  rw [remove_dangling_eq, handle_missing_snd]
  rfl

theorem fix_nodes_go (K : List String) :
    ∀ (l : NodeMap) (acc : NodeMap × ChannelMap),
      (odKeys l).Nodup → (∀ k ∈ odKeys l, k ∉ odKeys acc.1) →
      (l.foldl (fun acc q =>
          let new_node := remove_dangling_downstream_nodes q.2 K
          let step := handle_missing_inputs new_node K
          (odInsert acc.1 q.1 step.1,
           step.2.foldl (fun mm r => mdExtend mm r.1 r.2) acc.2)) acc).1
        = acc.1 ++ l.map (fun q => (q.1, fixNode q.2 K))
      ∧ ∀ pid, cmLookup ((l.foldl (fun acc q =>
          let new_node := remove_dangling_downstream_nodes q.2 K
          let step := handle_missing_inputs new_node K
          (odInsert acc.1 q.1 step.1,
           step.2.foldl (fun mm r => mdExtend mm r.1 r.2) acc.2)) acc).2) pid
          = cmLookup acc.2 pid ++ (l.map (fun q => orphanedOf q.2 K pid)).flatten := by
  intro l
  induction l with
  | nil =>
    intro acc _ _
    exact ⟨by simp, fun pid => by simp⟩
  | cons q rest ih =>
    intro acc hnd hdisj
    have hnd' : q.1 ∉ odKeys rest ∧ (odKeys rest).Nodup := List.nodup_cons.mp hnd
    have hfresh : q.1 ∉ odKeys acc.1 := hdisj q.1 (by simp [odKeys])
    simp only [List.foldl_cons]
    have hstep := ih
      ((odInsert acc.1 q.1 (handle_missing_inputs
          (remove_dangling_downstream_nodes q.2 K) K).1),
       (((handle_missing_inputs (remove_dangling_downstream_nodes q.2 K) K).2).foldl
          (fun mm r => mdExtend mm r.1 r.2) acc.2))
      hnd'.2 ?hdisj2
    case hdisj2 =>
      intro k hk hmem
      rw [mem_odKeys_odInsert] at hmem
      rcases hmem with h1 | rfl
      · exact hdisj k (List.mem_cons_of_mem _ hk) h1
      · exact hnd'.1 hk
    refine ⟨?_, ?_⟩
    · rw [hstep.1]
      rw [odInsert_fresh _ hfresh, repair_fst]
      simp
    · intro pid
      rw [hstep.2 pid]
      rw [cmLookup_extend_fold,
          cmAll_eq_cmLookup (handle_missing_snd_keys _ K), repair_snd]
      simp [List.append_assoc]

theorem fix_nodes_spec {m : NodeMap} (hnd : (odKeys m).Nodup) :
    (fix_nodes m).1 = m.map (fun q => (q.1, fixNode q.2 (odKeys m)))
    ∧ ∀ pid, cmLookup (fix_nodes m).2 pid
        = (m.map (fun q => orphanedOf q.2 (odKeys m) pid)).flatten := by
  unfold fix_nodes
  have h := fix_nodes_go (odKeys m) m ([], []) hnd (by simp [odKeys])
  refine ⟨by rw [h.1]; simp, fun pid => ?_⟩
  rw [h.2 pid]
  simp [cmLookup_nil]

theorem fix_nodes_keys {m : NodeMap} (hnd : (odKeys m).Nodup) :
    odKeys (fix_nodes m).1 = odKeys m := by
  rw [(fix_nodes_spec hnd).1]
  simp [odKeys, List.map_map, Function.comp_def]

/-! ### The full run of `filter_pipeline` on a valid input -/

/-- The retained entries of the node map: keys in both visited sets, in
original order. -/
def retainedPairs (p : Pipeline) (anc desc : List String) : NodeMap :=
  (pairsOf p).filter (fun q => decide (q.1 ∈ anc ∧ q.1 ∈ desc))

theorem odKeys_filter (l : NodeMap) (g : String → Bool) :
    odKeys (l.filter (fun q => g q.1)) = (odKeys l).filter g := by
  induction l with
  | nil => rfl
  | cons q rest ih =>
    rw [List.filter_cons]
    cases hg : g q.1 <;> simp [odKeys, List.filter_cons, hg] <;>
      simpa [odKeys] using ih

theorem odKeys_retainedPairs (p : Pipeline) (anc desc : List String) :
    odKeys (retainedPairs p anc desc)
      = (NodeIds p).filter (fun x => decide (x ∈ anc ∧ x ∈ desc)) := by
  unfold retainedPairs
  rw [odKeys_filter (pairsOf p) (fun x => decide (x ∈ anc ∧ x ∈ desc)), odKeys_pairsOf]

theorem valid_checks_pass {p : Pipeline} (hv : ValidPipeline p) :
    ensure_sync_pipeline p = .ok ()
    ∧ ensure_no_subpipeline_nodes p = .ok ()
    ∧ ensure_topologically_sorted p = .ok () :=
  ⟨(ensure_sync_ok_iff p).mpr hv.sync,
   (ensure_no_sub_ok_iff p).mpr hv.no_sub,
   (ensure_topologically_sorted_ok_iff p).mpr ⟨hv.up_sorted, hv.down_sorted⟩⟩

theorem filter_pipeline_run {p : Pipeline} (hv : ValidPipeline p) (f t : String → Bool) :
    ∃ anc desc,
      traverse (pairsOf p) .UPSTREAM ((NodeIds p).filter t) = .ok anc
      ∧ traverse (pairsOf p) .DOWNSTREAM ((NodeIds p).filter f) = .ok desc
      ∧ (∀ x, x ∈ anc ↔ PipeReachable p .UPSTREAM ((NodeIds p).filter t) x)
      ∧ (∀ x, x ∈ desc ↔ PipeReachable p .DOWNSTREAM ((NodeIds p).filter f) x)
      ∧ filter_pipeline p f t = .ok
          (make_filtered_pipeline p (fix_nodes (retainedPairs p anc desc)).1
            (fix_deployment_config p (odKeys (fix_nodes (retainedPairs p anc desc)).1)),
           (fix_nodes (retainedPairs p anc desc)).2) := by
  have hmap : make_ordered_node_map p = pairsOf p := make_map_eq_pairs hv.nodup
  have hkeysnd : (odKeys (pairsOf p)).Nodup := by
    rw [odKeys_pairsOf]
    exact hv.nodup
  have hupc : ClosedMap (pairsOf p) .UPSTREAM := hmap ▸ valid_up_closed hv
  have hdnc : ClosedMap (pairsOf p) .DOWNSTREAM := hmap ▸ valid_down_closed hv
  have hstartsub : ∀ (g : String → Bool) s, s ∈ (NodeIds p).filter g → s ∈ odKeys (pairsOf p) := by
    intro g s hs
    rw [odKeys_pairsOf]
    exact List.mem_of_mem_filter hs
  rcases traverse_total (pairsOf p) .UPSTREAM hupc (hstartsub t) with ⟨anc, hanc⟩
  rcases traverse_total (pairsOf p) .DOWNSTREAM hdnc (hstartsub f) with ⟨desc, hdesc⟩
  have hancspec := (traverse_spec (pairsOf p) .UPSTREAM hanc).2
  have hdescspec := (traverse_spec (pairsOf p) .DOWNSTREAM hdesc).2
  refine ⟨anc, desc, hanc, hdesc, ?_, ?_, ?_⟩
  · intro x
    rw [hancspec x]
    exact mapReach_iff_pipeReach hv.nodup .UPSTREAM _ x
  · intro x
    rw [hdescspec x]
    exact mapReach_iff_pipeReach hv.nodup .DOWNSTREAM _ x
  · rcases valid_checks_pass hv with ⟨h1, h2, h3⟩
    unfold filter_pipeline
    simp only [h1, h2, h3, exceptBind_ok, hmap, odKeys_pairsOf]
    rw [filter_node_map_ok hkeysnd hanc hdesc]
    rfl

theorem filter_pipeline_out {p : Pipeline} (hv : ValidPipeline p) {f t : String → Bool}
    {out : Pipeline} {cm : ChannelMap} (hok : filter_pipeline p f t = .ok (out, cm)) :
    ∃ anc desc,
      (∀ x, x ∈ anc ↔ PipeReachable p .UPSTREAM ((NodeIds p).filter t) x)
      ∧ (∀ x, x ∈ desc ↔ PipeReachable p .DOWNSTREAM ((NodeIds p).filter f) x)
      ∧ out = make_filtered_pipeline p (fix_nodes (retainedPairs p anc desc)).1
            (fix_deployment_config p (odKeys (fix_nodes (retainedPairs p anc desc)).1))
      ∧ cm = (fix_nodes (retainedPairs p anc desc)).2 := by
  rcases filter_pipeline_run hv f t with ⟨anc, desc, _, _, hia, hid, heq⟩
  rw [hok] at heq
  injection heq with h2
  exact ⟨anc, desc, hia, hid, congrArg Prod.fst h2, congrArg Prod.snd h2⟩

/-! ### Shape of the produced pipeline -/

theorem pairsOf_fst_eq (p : Pipeline) : ∀ q ∈ pairsOf p, q.1 = q.2.node_id := by
  intro q hq
  rcases List.mem_map.mp hq with ⟨pn, _, rfl⟩
  rfl

theorem retained_nodup {p : Pipeline} (hv : ValidPipeline p) (anc desc : List String) :
    (odKeys (retainedPairs p anc desc)).Nodup := by
  rw [odKeys_retainedPairs]
  exact hv.nodup.filter _

theorem dirList_fixNode (d : Direction) (n : PipelineNode) (K : List String) :
    dirList d (fixNode n K) = (dirList d n).filter (fun x => decide (x ∈ K)) := by
  cases d <;> rfl

theorem fixNode_node_id (n : PipelineNode) (K : List String) :
    (fixNode n K).node_id = n.node_id := rfl

theorem out_nodes_eq {p : Pipeline} (hv : ValidPipeline p) (anc desc : List String)
    (dc : Option IntermediateDeploymentConfig) :
    (make_filtered_pipeline p (fix_nodes (retainedPairs p anc desc)).1 dc).nodes
      = (retainedPairs p anc desc).map
          (fun q => PipelineOrNode.pipeline_node
            (fixNode q.2 (odKeys (retainedPairs p anc desc)))) := by
  show ((fix_nodes (retainedPairs p anc desc)).1).map (fun q => PipelineOrNode.pipeline_node q.2)
      = _
  rw [(fix_nodes_spec (retained_nodup hv anc desc)).1, List.map_map]
  rfl

theorem out_ids_eq {p : Pipeline} (hv : ValidPipeline p) (anc desc : List String)
    (dc : Option IntermediateDeploymentConfig) :
    NodeIds (make_filtered_pipeline p (fix_nodes (retainedPairs p anc desc)).1 dc)
      = odKeys (retainedPairs p anc desc) := by
  unfold NodeIds
  rw [out_nodes_eq hv anc desc dc, List.map_map]
  unfold odKeys
  apply List.map_congr_left
  intro q hq
  have := pairsOf_fst_eq p q (List.mem_of_mem_filter hq)
  simp only [Function.comp_apply, PipelineOrNode.getNode, fixNode_node_id]
  exact this.symm

theorem out_config_eq {p : Pipeline} (hv : ValidPipeline p) (anc desc : List String) :
    (make_filtered_pipeline p (fix_nodes (retainedPairs p anc desc)).1
      (fix_deployment_config p (odKeys (fix_nodes (retainedPairs p anc desc)).1))).deployment_config
    = fix_deployment_config p (odKeys (retainedPairs p anc desc)) := by
  rw [fix_nodes_keys (retained_nodup hv anc desc)]
  show (match fix_deployment_config p (odKeys (retainedPairs p anc desc)) with
      | some f => some f
      | none => p.deployment_config) = _
  unfold fix_deployment_config
  cases p.deployment_config <;> rfl

theorem pipeReach_mem_ids {p : Pipeline} (hv : ValidPipeline p) {d : Direction}
    {starts : List String} {x : String}
    (hstart : ∀ s ∈ starts, s ∈ NodeIds p) (h : PipeReachable p d starts x) :
    x ∈ NodeIds p := by
  rcases h with ⟨s, hs, hr⟩
  induction hr with
  | refl => exact hstart s hs
  | tail _ hbc _ =>
    rcases hbc with ⟨pn, hpn, _, hmem⟩
    cases d with
    | UPSTREAM => exact sortedForm_subset hv.up_sorted pn hpn _ hmem
    | DOWNSTREAM => exact dropForm_subset hv.down_sorted pn hpn _ hmem

/-! ### Topological order characterized by Pairwise relations -/

theorem sortedForm_iff_pairwise {d : Direction} {l : List PipelineOrNode}
    (hnd : (l.map (fun pn => pn.getNode.node_id)).Nodup) :
    SortedForm d l ↔
      ((∀ pn ∈ l, ∀ u ∈ dirList d pn.getNode, u ∈ l.map (fun pn => pn.getNode.node_id))
        ∧ List.Pairwise (fun a b => b.getNode.node_id ∉ dirList d a.getNode) l
        ∧ ∀ pn ∈ l, pn.getNode.node_id ∉ dirList d pn.getNode) := by
  constructor
  · intro h
    refine ⟨sortedForm_subset h, ?_, ?_⟩
    · rw [List.pairwise_iff_getElem]
      intro i j hi hj hij hmem
      have hres := h ⟨i, hi⟩ _ (by rw [List.get_eq_getElem]; exact hmem)
      rw [mem_map_take_iff] at hres
      rcases hres with ⟨k, hk, hki, hku⟩
      rw [List.get_eq_getElem] at hku
      have hkb : k < (l.map (fun pn => pn.getNode.node_id)).length := by simpa using hk
      have hjb : j < (l.map (fun pn => pn.getNode.node_id)).length := by simpa using hj
      have hmapeq : (l.map (fun pn => pn.getNode.node_id))[k]
          = (l.map (fun pn => pn.getNode.node_id))[j] := by
        rw [List.getElem_map, List.getElem_map]
        exact hku
      have hkj := (hnd.getElem_inj_iff).mp hmapeq
      have hki' : k < i := hki
      omega
    · intro pn hpn hmem
      rcases List.mem_iff_getElem.mp hpn with ⟨i, hi, rfl⟩
      have hres := h ⟨i, hi⟩ _ (by rw [List.get_eq_getElem]; exact hmem)
      rw [mem_map_take_iff] at hres
      rcases hres with ⟨k, hk, hki, hku⟩
      rw [List.get_eq_getElem] at hku
      have hkb : k < (l.map (fun pn => pn.getNode.node_id)).length := by simpa using hk
      have hib : i < (l.map (fun pn => pn.getNode.node_id)).length := by simpa using hi
      have hmapeq : (l.map (fun pn => pn.getNode.node_id))[k]
          = (l.map (fun pn => pn.getNode.node_id))[i] := by
        rw [List.getElem_map, List.getElem_map]
        exact hku
      have hkeq := (hnd.getElem_inj_iff).mp hmapeq
      have hki' : k < i := hki
      omega
  · rintro ⟨hrefs, hpw, hdiag⟩
    intro i u hu
    rcases i with ⟨iv, hi⟩
    have hu' : u ∈ l.map (fun pn => pn.getNode.node_id) :=
      hrefs _ (List.get_mem l iv hi) u hu
    rcases List.mem_map.mp hu' with ⟨pn, hpn, rfl⟩
    rcases List.mem_iff_getElem.mp hpn with ⟨k, hk, rfl⟩
    rw [mem_map_take_iff]
    rcases Nat.lt_trichotomy k iv with hlt | heq | hgt
    · exact ⟨k, hk, hlt, by rw [List.get_eq_getElem]⟩
    · exfalso
      subst heq
      refine hdiag (l.get ⟨k, hi⟩) (List.get_mem l k hi) ?_
      rw [List.get_eq_getElem]
      rw [List.get_eq_getElem] at hu
      exact hu
    · exfalso
      have hR := List.pairwise_iff_getElem.mp hpw iv k hi hk hgt
      refine hR ?_
      rw [List.get_eq_getElem] at hu
      exact hu

theorem dropForm_iff_pairwise {d : Direction} {l : List PipelineOrNode}
    (hnd : (l.map (fun pn => pn.getNode.node_id)).Nodup) :
    DropForm d l ↔
      ((∀ pn ∈ l, ∀ u ∈ dirList d pn.getNode, u ∈ l.map (fun pn => pn.getNode.node_id))
        ∧ List.Pairwise (fun a b => a.getNode.node_id ∉ dirList d b.getNode) l
        ∧ ∀ pn ∈ l, pn.getNode.node_id ∉ dirList d pn.getNode) := by
  rw [← sortedForm_reverse_iff]
  have hndr : (l.reverse.map (fun pn => pn.getNode.node_id)).Nodup := by
    rw [List.map_reverse]
    exact (List.nodup_reverse).mpr hnd
  rw [sortedForm_iff_pairwise hndr]
  rw [List.pairwise_reverse]
  constructor
  · rintro ⟨h1, h2, h3⟩
    refine ⟨?_, h2, ?_⟩
    · intro pn hpn u hu
      have := h1 pn (List.mem_reverse.mpr hpn) u hu
      rw [List.map_reverse, List.mem_reverse] at this
      exact this
    · intro pn hpn
      exact h3 pn (List.mem_reverse.mpr hpn)
  · rintro ⟨h1, h2, h3⟩
    refine ⟨?_, h2, ?_⟩
    · intro pn hpn u hu
      rw [List.map_reverse, List.mem_reverse]
      exact h1 pn (List.mem_reverse.mp hpn) u hu
    · intro pn hpn
      exact h3 pn (List.mem_reverse.mp hpn)

/-! ### The output pipeline is itself valid -/

theorem out_mem_nodes {p : Pipeline} (hv : ValidPipeline p) (anc desc : List String)
    (dc : Option IntermediateDeploymentConfig) {pn : PipelineOrNode}
    (h : pn ∈ (make_filtered_pipeline p (fix_nodes (retainedPairs p anc desc)).1 dc).nodes) :
    ∃ q ∈ retainedPairs p anc desc,
      pn = PipelineOrNode.pipeline_node (fixNode q.2 (odKeys (retainedPairs p anc desc))) := by
  rw [out_nodes_eq hv anc desc dc] at h
  rcases List.mem_map.mp h with ⟨q, hq, rfl⟩
  exact ⟨q, hq, rfl⟩

theorem retained_entry {p : Pipeline} {anc desc : List String}
    {q : String × PipelineNode} (hq : q ∈ retainedPairs p anc desc) :
    ∃ pn ∈ p.nodes, q = (pn.getNode.node_id, pn.getNode) := by
  have := List.mem_of_mem_filter hq
  exact List.mem_map.mp this |>.elim (fun pn h => ⟨pn, h.1, h.2.symm⟩)

theorem out_valid {p : Pipeline} (hv : ValidPipeline p) (anc desc : List String) :
    ValidPipeline (make_filtered_pipeline p (fix_nodes (retainedPairs p anc desc)).1
      (fix_deployment_config p (odKeys (fix_nodes (retainedPairs p anc desc)).1))) := by
  have hndout : (NodeIds (make_filtered_pipeline p (fix_nodes (retainedPairs p anc desc)).1
      (fix_deployment_config p (odKeys (fix_nodes (retainedPairs p anc desc)).1)))).Nodup := by
    rw [out_ids_eq hv anc desc _, odKeys_retainedPairs]
    exact hv.nodup.filter _
  have hrefs_out : ∀ d : Direction,
      ∀ pn ∈ (make_filtered_pipeline p (fix_nodes (retainedPairs p anc desc)).1
        (fix_deployment_config p (odKeys (fix_nodes (retainedPairs p anc desc)).1))).nodes,
      ∀ u ∈ dirList d pn.getNode,
        u ∈ (make_filtered_pipeline p (fix_nodes (retainedPairs p anc desc)).1
          (fix_deployment_config p
            (odKeys (fix_nodes (retainedPairs p anc desc)).1))).nodes.map
              (fun pn => pn.getNode.node_id) := by
    intro d pn hpn u hu
    rcases out_mem_nodes hv anc desc _ hpn with ⟨q, hq, rfl⟩
    show u ∈ NodeIds _
    rw [out_ids_eq hv anc desc _]
    simp only [PipelineOrNode.getNode, dirList_fixNode] at hu
    exact (List.mem_filter.mp hu).2 |> of_decide_eq_true
  have hdiag_in : ∀ d : Direction, ∀ pn ∈ p.nodes, pn.getNode.node_id ∉ dirList d pn.getNode := by
    intro d
    cases d with
    | UPSTREAM => exact ((sortedForm_iff_pairwise hv.nodup).mp hv.up_sorted).2.2
    | DOWNSTREAM => exact ((dropForm_iff_pairwise hv.nodup).mp hv.down_sorted).2.2
  have hdiag_out : ∀ d : Direction,
      ∀ pn ∈ (make_filtered_pipeline p (fix_nodes (retainedPairs p anc desc)).1
        (fix_deployment_config p (odKeys (fix_nodes (retainedPairs p anc desc)).1))).nodes,
      pn.getNode.node_id ∉ dirList d pn.getNode := by
    intro d pn hpn hmem
    rcases out_mem_nodes hv anc desc _ hpn with ⟨q, hq, rfl⟩
    rcases retained_entry hq with ⟨pn', hpn', rfl⟩
    simp only [PipelineOrNode.getNode, dirList_fixNode, fixNode_node_id] at hmem
    exact hdiag_in d pn' hpn' (List.mem_of_mem_filter hmem)
  have hpw_up_in := ((sortedForm_iff_pairwise hv.nodup).mp hv.up_sorted).2.1
  have hpw_up_pairs : List.Pairwise (fun q1 q2 : String × PipelineNode =>
      q2.2.node_id ∉ dirList .UPSTREAM q1.2) (pairsOf p) := by
    unfold pairsOf
    rw [List.pairwise_map]
    exact hpw_up_in
  have hpw_up_out : List.Pairwise
      (fun a b => b.getNode.node_id ∉ dirList .UPSTREAM a.getNode)
      (make_filtered_pipeline p (fix_nodes (retainedPairs p anc desc)).1
        (fix_deployment_config p (odKeys (fix_nodes (retainedPairs p anc desc)).1))).nodes := by
    rw [out_nodes_eq hv anc desc _, List.pairwise_map]
    refine (List.Pairwise.sublist (List.filter_sublist _) hpw_up_pairs).imp ?_
    intro q1 q2 hS hmem
    apply hS
    simp only [PipelineOrNode.getNode, dirList_fixNode, fixNode_node_id] at hmem
    exact List.mem_of_mem_filter hmem
  have hpw_dn_in := ((dropForm_iff_pairwise hv.nodup).mp hv.down_sorted).2.1
  have hpw_dn_pairs : List.Pairwise (fun q1 q2 : String × PipelineNode =>
      q1.2.node_id ∉ dirList .DOWNSTREAM q2.2) (pairsOf p) := by
    unfold pairsOf
    rw [List.pairwise_map]
    exact hpw_dn_in
  have hpw_dn_out : List.Pairwise
      (fun a b => a.getNode.node_id ∉ dirList .DOWNSTREAM b.getNode)
      (make_filtered_pipeline p (fix_nodes (retainedPairs p anc desc)).1
        (fix_deployment_config p (odKeys (fix_nodes (retainedPairs p anc desc)).1))).nodes := by
    rw [out_nodes_eq hv anc desc _, List.pairwise_map]
    refine (List.Pairwise.sublist (List.filter_sublist _) hpw_dn_pairs).imp ?_
    intro q1 q2 hS hmem
    apply hS
    simp only [PipelineOrNode.getNode, dirList_fixNode, fixNode_node_id] at hmem
    exact List.mem_of_mem_filter hmem
  refine ⟨?_, ?_, hndout, ?_, ?_⟩
  · exact hv.sync
  · intro pn hpn
    rcases out_mem_nodes hv anc desc _ hpn with ⟨q, _, rfl⟩
    rfl
  · exact (sortedForm_iff_pairwise hndout).mpr
      ⟨hrefs_out .UPSTREAM, hpw_up_out, hdiag_out .UPSTREAM⟩
  · exact (dropForm_iff_pairwise hndout).mpr
      ⟨hrefs_out .DOWNSTREAM, hpw_dn_out, hdiag_out .DOWNSTREAM⟩

/-! ### The error path -/

/-- The three validation checks, in the order `filter_pipeline` runs them. -/
def validatePipeline (p : Pipeline) : Except FilterError Unit := do
  ensure_sync_pipeline p
  ensure_no_subpipeline_nodes p
  ensure_topologically_sorted p

theorem exceptBind_err {α β γ : Type} (e : γ) (f : α → Except γ β) :
    (Except.error e >>= f : Except γ β) = .error e := rfl

theorem filter_pipeline_total {p : Pipeline}
    (hsync : p.execution_mode = ExecutionMode.SYNC)
    (hnosub : ∀ pn ∈ p.nodes, pn.isSubPipeline = false)
    (hup : UpstreamSorted p) (hdn : DownstreamSorted p) (f t : String → Bool) :
    ∃ res, filter_pipeline p f t = .ok res := by
  have hupc : ClosedMap (make_ordered_node_map p) .UPSTREAM :=
    make_map_closed p .UPSTREAM (sortedForm_subset hup)
  have hdnc : ClosedMap (make_ordered_node_map p) .DOWNSTREAM :=
    make_map_closed p .DOWNSTREAM (dropForm_subset hdn)
  have hstart : ∀ (g : String → Bool),
      ∀ s ∈ (odKeys (make_ordered_node_map p)).filter g,
        s ∈ odKeys (make_ordered_node_map p) :=
    fun _ s hs => List.mem_of_mem_filter hs
  rcases traverse_total _ .UPSTREAM hupc (hstart t) with ⟨anc, hanc⟩
  rcases traverse_total _ .DOWNSTREAM hdnc (hstart f) with ⟨desc, hdesc⟩
  have hfnm : filter_node_map (make_ordered_node_map p)
      ((odKeys (make_ordered_node_map p)).filter f)
      ((odKeys (make_ordered_node_map p)).filter t)
      = .ok ((make_ordered_node_map p).foldl
        (fun result q =>
          if q.1 ∈ anc ∧ q.1 ∈ desc then odInsert result q.1 q.2 else result) []) := by
    unfold filter_node_map
    rw [hanc, exceptBind_ok, hdesc, exceptBind_ok, exceptPure_eq_ok]
  have hmain : filter_pipeline p f t = .ok
      (make_filtered_pipeline p
        (fix_nodes ((make_ordered_node_map p).foldl
          (fun result q =>
            if q.1 ∈ anc ∧ q.1 ∈ desc then odInsert result q.1 q.2 else result) [])).1
        (fix_deployment_config p
          (odKeys (fix_nodes ((make_ordered_node_map p).foldl
            (fun result q =>
              if q.1 ∈ anc ∧ q.1 ∈ desc then odInsert result q.1 q.2 else result) [])).1)),
       (fix_nodes ((make_ordered_node_map p).foldl
          (fun result q =>
            if q.1 ∈ anc ∧ q.1 ∈ desc then odInsert result q.1 q.2 else result) [])).2) := by
    unfold filter_pipeline
    simp only [(ensure_sync_ok_iff p).mpr hsync, (ensure_no_sub_ok_iff p).mpr hnosub,
      (ensure_topologically_sorted_ok_iff p).mpr ⟨hup, hdn⟩, exceptBind_ok]
    rw [hfnm]
  exact ⟨_, hmain⟩

theorem filter_error_iff_validate (p : Pipeline) (f t : String → Bool) (e : FilterError) :
    filter_pipeline p f t = .error e ↔ validatePipeline p = .error e := by
  cases hs : ensure_sync_pipeline p with
  | error e0 =>
    have hfp : filter_pipeline p f t = .error e0 := by
      unfold filter_pipeline
      rw [hs]
      rfl
    have hvp : validatePipeline p = .error e0 := by
      unfold validatePipeline
      rw [hs]
      rfl
    rw [hfp, hvp]
    simp
  | ok u =>
    cases u
    cases hns : ensure_no_subpipeline_nodes p with
    | error e0 =>
      have hfp : filter_pipeline p f t = .error e0 := by
        unfold filter_pipeline
        rw [hs, exceptBind_ok, hns]
        rfl
      have hvp : validatePipeline p = .error e0 := by
        unfold validatePipeline
        rw [hs, exceptBind_ok, hns]
        rfl
      rw [hfp, hvp]
      simp
    | ok v =>
      cases v
      cases ht : ensure_topologically_sorted p with
      | error e0 =>
        have hfp : filter_pipeline p f t = .error e0 := by
          unfold filter_pipeline
          rw [hs, exceptBind_ok, hns, exceptBind_ok, ht]
          rfl
        have hvp : validatePipeline p = .error e0 := by
          unfold validatePipeline
          rw [hs, exceptBind_ok, hns, exceptBind_ok, ht]
        rw [hfp, hvp]
        simp
      | ok w =>
        cases w
        have hvp : validatePipeline p = .ok () := by
          unfold validatePipeline
          rw [hs, exceptBind_ok, hns, exceptBind_ok, ht]
        have hts := (ensure_topologically_sorted_ok_iff p).mp ht
        rcases filter_pipeline_total ((ensure_sync_ok_iff p).mp hs)
          ((ensure_no_sub_ok_iff p).mp hns) hts.1 hts.2 f t with ⟨res, hres⟩
        rw [hres, hvp]
        constructor <;> intro h <;> cases h

theorem validate_ok_iff (p : Pipeline) :
    validatePipeline p = .ok ()
      ↔ (p.execution_mode = ExecutionMode.SYNC
          ∧ (∀ pn ∈ p.nodes, pn.isSubPipeline = false)
          ∧ UpstreamSorted p ∧ DownstreamSorted p) := by
  unfold validatePipeline
  cases hs : ensure_sync_pipeline p with
  | error e0 =>
    rw [exceptBind_err]
    constructor
    · intro h
      cases h
    · rintro ⟨h1, -⟩
      rw [← ensure_sync_ok_iff] at h1
      rw [hs] at h1
      cases h1
  | ok u =>
    cases u
    rw [exceptBind_ok]
    cases hns : ensure_no_subpipeline_nodes p with
    | error e0 =>
      rw [exceptBind_err]
      constructor
      · intro h
        cases h
      · rintro ⟨-, h2, -⟩
        rw [← ensure_no_sub_ok_iff] at h2
        rw [hns] at h2
        cases h2
    | ok v =>
      cases v
      rw [exceptBind_ok]
      rw [ensure_topologically_sorted_ok_iff]
      constructor
      · intro h
        exact ⟨(ensure_sync_ok_iff p).mp hs, (ensure_no_sub_ok_iff p).mp hns, h⟩
      · rintro ⟨-, -, h3⟩
        exact h3

theorem sortedLoop_error_shape (d : Direction) :
    ∀ (l : List PipelineOrNode) (visited : List String) (e : FilterError),
      sortedLoop d l visited = .error e → ∃ nid u, e = mkSortErr d nid u := by
  intro l
  induction l with
  | nil =>
    intro visited e h
    cases h
  | cons pn rest ih =>
    intro visited e h
    rw [sortedLoop] at h
    cases hfind : (dirList d pn.getNode).find? (fun u => !(decide (u ∈ visited))) with
    | some u =>
      rw [hfind] at h
      injection h with h2
      exact ⟨pn.getNode.node_id, u, h2.symm⟩
    | none =>
      rw [hfind] at h
      exact ih _ e h

theorem validate_error_kind (p : Pipeline) (e : FilterError)
    (h : validatePipeline p = .error e) :
    (match e with
      | .NotSyncPipeline => p.execution_mode ≠ ExecutionMode.SYNC
      | .SubPipelineFound pn => pn ∈ p.nodes ∧ pn.isSubPipeline = true
      | .UpstreamNotSorted _ _ => ¬ UpstreamSorted p
      | .DownstreamNotSorted _ _ => ¬ DownstreamSorted p
      | .KeyError _ => False) := by
  unfold validatePipeline at h
  cases hs : ensure_sync_pipeline p with
  | error e0 =>
    rw [hs, exceptBind_err] at h
    injection h with h2
    subst h2
    have : e0 = .NotSyncPipeline ∧ p.execution_mode ≠ ExecutionMode.SYNC := by
      unfold ensure_sync_pipeline at hs
      by_cases hm : p.execution_mode = ExecutionMode.SYNC
      · rw [if_neg (by simpa using hm)] at hs
        cases hs
      · rw [if_pos (by simpa using hm)] at hs
        injection hs with h3
        exact ⟨h3.symm, hm⟩
    rcases this with ⟨rfl, hm⟩
    exact hm
  | ok u =>
    cases u
    rw [hs, exceptBind_ok] at h
    cases hns : ensure_no_subpipeline_nodes p with
    | error e0 =>
      rw [hns, exceptBind_err] at h
      injection h with h2
      subst h2
      unfold ensure_no_subpipeline_nodes at hns
      cases hfind : p.nodes.find? (fun pn => pn.isSubPipeline) with
      | some pn =>
        rw [hfind] at hns
        injection hns with h3
        subst h3
        exact ⟨List.mem_of_find?_eq_some hfind, List.find?_some hfind⟩
      | none =>
        rw [hfind] at hns
        cases hns
    | ok v =>
      cases v
      rw [hns, exceptBind_ok] at h
      unfold ensure_topologically_sorted at h
      cases hup : sortedLoop .UPSTREAM p.nodes [] with
      | error e0 =>
        rw [hup, exceptBind_err] at h
        injection h with h2
        subst h2
        rcases sortedLoop_error_shape .UPSTREAM p.nodes [] e0 hup with ⟨nid, u, rfl⟩
        show ¬ UpstreamSorted p
        intro hcontra
        have : sortedLoop .UPSTREAM p.nodes [] = .ok () := by
          rw [sortedLoop_ok_iff]
          intro i u hu
          exact Or.inr (hcontra i u hu)
        rw [hup] at this
        cases this
      | ok w =>
        cases w
        rw [hup, exceptBind_ok] at h
        rcases sortedLoop_error_shape .DOWNSTREAM p.nodes.reverse [] e h with ⟨nid, u, rfl⟩
        show ¬ DownstreamSorted p
        intro hcontra
        have hsf : SortedForm .DOWNSTREAM p.nodes.reverse :=
          (sortedForm_reverse_iff .DOWNSTREAM p.nodes).mpr hcontra
        have : sortedLoop .DOWNSTREAM p.nodes.reverse [] = .ok () := by
          rw [sortedLoop_ok_iff]
          intro i u hu
          exact Or.inr (hsf i u hu)
        rw [h] at this
        cases this

/-! ### The identity run -/

theorem fixNode_eq_self {n : PipelineNode} {K : List String}
    (hup : ∀ u ∈ n.upstream_nodes, u ∈ K)
    (hdn : ∀ u ∈ n.downstream_nodes, u ∈ K) : fixNode n K = n := by
  unfold fixNode
  rw [List.filter_eq_self.mpr (fun a ha => by simp [hup a ha]),
      List.filter_eq_self.mpr (fun a ha => by simp [hdn a ha])]

theorem fix_nodes_snd_nil {m : NodeMap}
    (h : ∀ q ∈ m, ∀ u ∈ q.2.upstream_nodes, u ∈ odKeys m) :
    (fix_nodes m).2 = [] := by
  unfold fix_nodes
  suffices hgo : ∀ (l : NodeMap) (acc : NodeMap × ChannelMap),
      (∀ q ∈ l, ∀ u ∈ q.2.upstream_nodes, u ∈ odKeys m) →
      (l.foldl (fun acc q =>
        let new_node := remove_dangling_downstream_nodes q.2 (odKeys m)
        let step := handle_missing_inputs new_node (odKeys m)
        (odInsert acc.1 q.1 step.1,
         step.2.foldl (fun mm r => mdExtend mm r.1 r.2) acc.2)) acc).2 = acc.2 by
    exact hgo m ([], []) h
  intro l
  induction l with
  | nil =>
    intro acc _
    rfl
  | cons q rest ih =>
    intro acc hl
    simp only [List.foldl_cons]
    rw [ih _ (fun r hr => hl r (List.mem_cons_of_mem _ hr))]
    have hup := hl q (List.mem_cons_self _ _)
    have hflt : q.2.upstream_nodes.filter (fun u => !(decide (u ∈ odKeys m))) = [] := by
      rw [List.filter_eq_nil_iff]
      intro a ha
      simp [hup a ha]
    have hsnd : (handle_missing_inputs
        (remove_dangling_downstream_nodes q.2 (odKeys m)) (odKeys m)).2 = [] := by
      unfold handle_missing_inputs
      rw [show (remove_dangling_downstream_nodes q.2 (odKeys m)).upstream_nodes
          = q.2.upstream_nodes from by rw [remove_dangling_eq]]
      rw [hflt]
      simp
    rw [hsnd]
    rfl

theorem map_pipeline_node_getNode {p : Pipeline}
    (hnosub : ∀ pn ∈ p.nodes, pn.isSubPipeline = false) :
    (pairsOf p).map (fun q => PipelineOrNode.pipeline_node q.2) = p.nodes := by
  unfold pairsOf
  rw [List.map_map]
  have hcongr : ∀ pn ∈ p.nodes,
      ((fun q : String × PipelineNode => PipelineOrNode.pipeline_node q.2) ∘
        (fun pn => (pn.getNode.node_id, pn.getNode))) pn = id pn := by
    intro pn hpn
    cases pn with
    | pipeline_node n => rfl
    | sub_pipeline s =>
      exact absurd (hnosub _ hpn) (by simp [PipelineOrNode.isSubPipeline])
  rw [List.map_congr_left hcongr, List.map_id]

theorem identity_run {p : Pipeline} (hv : ValidPipeline p)
    (hcfg : ∀ dc, p.deployment_config = some dc →
      (∀ q ∈ dc.executor_specs, q.1 ∈ NodeIds p)
      ∧ (∀ q ∈ dc.custom_driver_specs, q.1 ∈ NodeIds p)
      ∧ (∀ q ∈ dc.node_level_platform_configs, q.1 ∈ NodeIds p)) :
    filter_pipeline p (fun _ => true) (fun _ => true) = .ok (p, []) := by
  rcases filter_pipeline_run hv (fun _ => true) (fun _ => true) with
    ⟨anc, desc, hanc, hdesc, hia, hid, heq⟩
  have hstarts : (NodeIds p).filter (fun _ => true) = NodeIds p :=
    List.filter_eq_self.mpr (fun _ _ => rfl)
  have hallanc : ∀ x ∈ NodeIds p, x ∈ anc := by
    intro x hx
    rw [hia x]
    exact ⟨x, by rw [hstarts]; exact hx, Relation.ReflTransGen.refl⟩
  have halldesc : ∀ x ∈ NodeIds p, x ∈ desc := by
    intro x hx
    rw [hid x]
    exact ⟨x, by rw [hstarts]; exact hx, Relation.ReflTransGen.refl⟩
  have hRP : retainedPairs p anc desc = pairsOf p := by
    unfold retainedPairs
    apply List.filter_eq_self.mpr
    intro q hq
    have hq1 : q.1 ∈ NodeIds p := by
      rw [← odKeys_pairsOf]
      exact List.mem_map_of_mem _ hq
    simp [hallanc q.1 hq1, halldesc q.1 hq1]
  have hndk : (odKeys (pairsOf p)).Nodup := by
    rw [odKeys_pairsOf]
    exact hv.nodup
  have hfst : (fix_nodes (pairsOf p)).1 = pairsOf p := by
    rw [(fix_nodes_spec hndk).1]
    have hcongr : ∀ q ∈ pairsOf p, (q.1, fixNode q.2 (odKeys (pairsOf p))) = id q := by
      intro q hq
      rcases List.mem_map.mp hq with ⟨pn, hpn, rfl⟩
      have hu : ∀ u ∈ pn.getNode.upstream_nodes, u ∈ odKeys (pairsOf p) := by
        intro u hu
        rw [odKeys_pairsOf]
        exact sortedForm_subset hv.up_sorted pn hpn u hu
      have hd : ∀ u ∈ pn.getNode.downstream_nodes, u ∈ odKeys (pairsOf p) := by
        intro u hu
        rw [odKeys_pairsOf]
        exact dropForm_subset hv.down_sorted pn hpn u hu
      show (_, fixNode pn.getNode _) = _
      rw [fixNode_eq_self hu hd]
      rfl
    rw [List.map_congr_left hcongr, List.map_id]
  have hsnd : (fix_nodes (pairsOf p)).2 = [] := by
    apply fix_nodes_snd_nil
    intro q hq u hu
    rcases List.mem_map.mp hq with ⟨pn, hpn, rfl⟩
    rw [odKeys_pairsOf]
    exact sortedForm_subset hv.up_sorted pn hpn u hu
  have hcfg2 : fix_deployment_config p (odKeys (pairsOf p)) = p.deployment_config := by
    rw [odKeys_pairsOf]
    cases hdc : p.deployment_config with
    | none =>
      unfold fix_deployment_config
      simp only [hdc]
    | some dc =>
      rcases hcfg dc hdc with ⟨h1, h2, h3⟩
      have e1 : dc.executor_specs.filter (fun q => decide (q.1 ∈ NodeIds p))
          = dc.executor_specs :=
        List.filter_eq_self.mpr (fun a ha => by simp [h1 a ha])
      have e2 : dc.custom_driver_specs.filter (fun q => decide (q.1 ∈ NodeIds p))
          = dc.custom_driver_specs :=
        List.filter_eq_self.mpr (fun a ha => by simp [h2 a ha])
      have e3 : dc.node_level_platform_configs.filter (fun q => decide (q.1 ∈ NodeIds p))
          = dc.node_level_platform_configs :=
        List.filter_eq_self.mpr (fun a ha => by simp [h3 a ha])
      unfold fix_deployment_config
      simp only [hdc, fix_per_node_config]
      rw [e1, e2, e3]
  rw [hRP, hfst, hsnd, hcfg2] at heq
  have hout : make_filtered_pipeline p (pairsOf p) p.deployment_config = p := by
    unfold make_filtered_pipeline
    rw [map_pipeline_node_getNode hv.no_sub]
    have hm : (match p.deployment_config with
        | some f => some f
        | none => p.deployment_config) = p.deployment_config := by
      cases p.deployment_config <;> rfl
    rw [hm]
  rw [hout] at heq
  exact heq

/-! ### Concrete pipelines for witnesses and counterexamples -/

/-- A channel produced by node `A`. -/
def chA : Channel := ⟨"A", 0⟩

/-- A channel produced by node `B`. -/
def chB : Channel := ⟨"B", 0⟩

/-- Node `A` of the sample chain `A → B → C`. -/
def nodeA : PipelineNode := ⟨"A", [], ["B"], [], 1⟩

/-- Node `B` of the sample chain. -/
def nodeB : PipelineNode := ⟨"B", ["A"], ["C"], [("in", ⟨[chA]⟩)], 2⟩

/-- Node `C` of the sample chain. -/
def nodeC : PipelineNode := ⟨"C", ["B"], [], [("in", ⟨[chB]⟩)], 3⟩

/-- A three-node SYNC pipeline `A → B → C` with a per-node deployment config. -/
def samplePipeline : Pipeline :=
  ⟨.SYNC, [.pipeline_node nodeA, .pipeline_node nodeB, .pipeline_node nodeC],
    some ⟨[("A", 1), ("B", 2), ("C", 3)], [("B", 4)], []⟩, 7⟩

/-- The pipeline produced by filtering `samplePipeline` from node `B`. -/
def sampleOutB : Pipeline :=
  ⟨.SYNC, [.pipeline_node ⟨"B", [], ["C"], [("in", ⟨[chA]⟩)], 2⟩, .pipeline_node nodeC],
    some ⟨[("B", 2), ("C", 3)], [("B", 4)], []⟩, 7⟩

/-- Variant of node `B` with no downstream edge. -/
def nodeB2 : PipelineNode := ⟨"B", ["A"], [], [("in", ⟨[chA]⟩)], 2⟩

/-- A node whose input channel names producer `A` without listing `A` among
its upstream ids. -/
def nodeD : PipelineNode := ⟨"D", [], [], [("in", ⟨[chA]⟩)], 4⟩

/-- A valid pipeline where node `D`'s channel references producer `A` that is
absent from `D.upstream_nodes`. -/
def cexPipeline : Pipeline :=
  ⟨.SYNC, [.pipeline_node nodeA, .pipeline_node nodeB2, .pipeline_node nodeD], none, 0⟩

/-- The pipeline produced by filtering `cexPipeline` from node `D`. -/
def cexOut : Pipeline := ⟨.SYNC, [.pipeline_node nodeD], none, 0⟩

/-- An ASYNC pipeline, rejected by the mode check. -/
def asyncPipeline : Pipeline := ⟨.ASYNC, [], none, 0⟩

theorem samplePipeline_valid : ValidPipeline samplePipeline := by
  refine ⟨rfl, by decide, by decide, ?_, ?_⟩
  · unfold UpstreamSorted SortedForm
    decide
  · unfold DownstreamSorted DropForm
    decide

theorem cexPipeline_valid : ValidPipeline cexPipeline := by
  refine ⟨rfl, by decide, by decide, ?_, ?_⟩
  · unfold UpstreamSorted SortedForm
    decide
  · unfold DownstreamSorted DropForm
    decide

theorem sample_run_id :
    filter_pipeline samplePipeline (fun _ => true) (fun _ => true)
      = .ok (samplePipeline, []) := by
  rw [← filter_pipelineExec_eq]
  rfl

theorem sample_run_fromB :
    filter_pipeline samplePipeline (fun x => x == "B") (fun _ => true)
      = .ok (sampleOutB, [("A", [chA])]) := by
  rw [← filter_pipelineExec_eq]
  rfl

theorem cex_run :
    filter_pipeline cexPipeline (fun x => x == "D") (fun _ => true)
      = .ok (cexOut, []) := by
  rw [← filter_pipelineExec_eq]
  rfl

/-! ### The claims -/

/-- C1: for every valid input graph and every pair of node-id predicates, the
set of node ids retained by `filter_pipeline` equals exactly the intersection
of the set of nodes downstream-reachable from the nodes satisfying the from
selector (including those nodes themselves) and the set of nodes
upstream-reachable from the nodes satisfying the to selector (including those
nodes themselves). -/
theorem claim1_reachability {p : Pipeline} (f t : String → Bool) (hv : ValidPipeline p)
    {out : Pipeline} {cm : ChannelMap}
    (hok : filter_pipeline p f t = .ok (out, cm)) :
    ∀ x, x ∈ NodeIds out ↔
      (PipeReachable p .DOWNSTREAM ((NodeIds p).filter f) x
        ∧ PipeReachable p .UPSTREAM ((NodeIds p).filter t) x) := by
  rcases filter_pipeline_out hv hok with ⟨anc, desc, hia, hid, rfl, -⟩
  intro x
  rw [out_ids_eq hv anc desc _, odKeys_retainedPairs, List.mem_filter]
  constructor
  · rintro ⟨hxids, hcond⟩
    have hcond' : x ∈ anc ∧ x ∈ desc := of_decide_eq_true hcond
    exact ⟨(hid x).mp hcond'.2, (hia x).mp hcond'.1⟩
  · rintro ⟨hdown, hup⟩
    have hxanc : x ∈ anc := (hia x).mpr hup
    have hxdesc : x ∈ desc := (hid x).mpr hdown
    refine ⟨?_, decide_eq_true ⟨hxanc, hxdesc⟩⟩
    exact pipeReach_mem_ids hv (fun s hs => List.mem_of_mem_filter hs) hup

/-- C2: for every valid input graph and predicate pair, the output node-id
sequence is exactly the input node-id sequence restricted to the retained id
set, with the relative order of the surviving nodes unchanged (the order
comes from the original sequence, not from traversal order). -/
theorem claim2_order_preservation {p : Pipeline} (f t : String → Bool)
    (hv : ValidPipeline p) {out : Pipeline} {cm : ChannelMap}
    (hok : filter_pipeline p f t = .ok (out, cm)) :
    NodeIds out = (NodeIds p).filter (fun x => decide (x ∈ NodeIds out)) := by
  rcases filter_pipeline_out hv hok with ⟨anc, desc, -, -, rfl, -⟩
  rw [out_ids_eq hv anc desc _, odKeys_retainedPairs]
  symm
  apply List.filter_congr
  intro x hx
  simp [List.mem_filter, hx]

/-- C3 counterexample: the claim as stated is false on the code.  In the
valid graph `cexPipeline`, node `D`'s input channel `chA` names producer
`A`; filtering from `D` retains `D` and excludes `A` — so the claim's
conditions for reporting `chA` under key `A` all hold — yet the run succeeds
with an EMPTY orphaned-channel mapping, because `A` is not listed in
`D.upstream_nodes` and the code scans only removed upstream ids. -/
theorem claim3_counterexample :
    ValidPipeline cexPipeline
    ∧ filter_pipeline cexPipeline (fun x => x == "D") (fun _ => true) = .ok (cexOut, [])
    ∧ chA ∉ cmLookup ([] : ChannelMap) "A"
    ∧ (chA.producer_id = "A"
        ∧ "A" ∈ NodeIds cexPipeline ∧ "A" ∉ NodeIds cexOut
        ∧ ∃ pn ∈ cexPipeline.nodes, pn.getNode.node_id ∈ NodeIds cexOut
            ∧ ∃ spec ∈ pn.getNode.inputs, chA ∈ spec.2.channels) := by
  refine ⟨cexPipeline_valid, cex_run, by simp [cmLookup], rfl, by decide, by decide,
    PipelineOrNode.pipeline_node nodeD, by decide, by decide,
    ("in", ⟨[chA]⟩), by decide, by decide⟩

/-- C3 (amended): a channel appears in the orphaned-channel mapping under key
`pid` iff its producer id equals `pid`, node `pid` was excluded by filtering,
the node owning the channel was retained, AND `pid` is listed among the
owning node's upstream ids (the amendment: the code scans only removed
upstream ids, so a channel whose producer is absent from the owner's
`upstream_nodes` is never reported). -/
theorem claim3_orphans_amended {p : Pipeline} (f t : String → Bool)
    (hv : ValidPipeline p) {out : Pipeline} {cm : ChannelMap}
    (hok : filter_pipeline p f t = .ok (out, cm)) :
    ∀ (ch : Channel) (pid : String),
      ch ∈ cmLookup cm pid
        ↔ (ch.producer_id = pid
            ∧ pid ∈ NodeIds p ∧ pid ∉ NodeIds out
            ∧ ∃ pn ∈ p.nodes, pn.getNode.node_id ∈ NodeIds out
                ∧ pid ∈ pn.getNode.upstream_nodes
                ∧ ∃ spec ∈ pn.getNode.inputs, ch ∈ spec.2.channels) := by
  rcases filter_pipeline_out hv hok with ⟨anc, desc, -, -, rfl, rfl⟩
  intro ch pid
  have hnd := retained_nodup hv anc desc
  rw [(fix_nodes_spec hnd).2 pid, out_ids_eq hv anc desc _, List.mem_flatten]
  constructor
  · rintro ⟨L, hL, hchL⟩
    rcases List.mem_map.mp hL with ⟨q, hq, rfl⟩
    unfold orphanedOf at hchL
    rcases List.mem_filter.mp hchL with ⟨hall, hcond⟩
    simp only [Bool.and_eq_true, beq_iff_eq, decide_eq_true_eq, Bool.not_eq_eq_eq_not,
      Bool.not_true, decide_eq_false_iff_not] at hcond
    rcases hcond with ⟨hc1, hc2, hc3⟩
    rcases retained_entry hq with ⟨pn, hpn, rfl⟩
    refine ⟨hc1, sortedForm_subset hv.up_sorted pn hpn pid hc2, hc3, pn, hpn,
      List.mem_map_of_mem Prod.fst hq, hc2, ?_⟩
    unfold allInputChannels at hall
    rcases List.mem_flatten.mp hall with ⟨L, hLmem, hchmem⟩
    rcases List.mem_map.mp hLmem with ⟨spec, hspec, rfl⟩
    exact ⟨spec, hspec, hchmem⟩
  · rintro ⟨hc1, hpids, hnotout, pn, hpn, howner, hup, spec, hspec, hch⟩
    refine ⟨orphanedOf pn.getNode (odKeys (retainedPairs p anc desc)) pid, ?_, ?_⟩
    · apply List.mem_map.mpr
      refine ⟨(pn.getNode.node_id, pn.getNode), ?_, rfl⟩
      unfold retainedPairs
      apply List.mem_filter.mpr
      refine ⟨List.mem_map_of_mem _ hpn, ?_⟩
      rw [odKeys_retainedPairs] at howner
      exact (List.mem_filter.mp howner).2
    · unfold orphanedOf
      apply List.mem_filter.mpr
      constructor
      · unfold allInputChannels
        exact List.mem_flatten.mpr ⟨spec.2.channels, List.mem_map_of_mem _ hspec, hch⟩
      · simp [hc1, hup, hnotout]

/-- C4: for every valid input graph and predicate pair, the output graph
satisfies the same invariants as a valid input: node ids are unique, every id
in each output node's upstream and downstream lists names a node present in
the output, every upstream id appears earlier in the output sequence than its
node and every downstream id appears later. -/
theorem claim4_output_invariants {p : Pipeline} (f t : String → Bool)
    (hv : ValidPipeline p) {out : Pipeline} {cm : ChannelMap}
    (hok : filter_pipeline p f t = .ok (out, cm)) :
    (NodeIds out).Nodup
    ∧ (∀ pn ∈ out.nodes, ∀ u ∈ pn.getNode.upstream_nodes, u ∈ NodeIds out)
    ∧ (∀ pn ∈ out.nodes, ∀ u ∈ pn.getNode.downstream_nodes, u ∈ NodeIds out)
    ∧ UpstreamSorted out ∧ DownstreamSorted out := by
  rcases filter_pipeline_out hv hok with ⟨anc, desc, -, -, rfl, -⟩
  have hov := out_valid hv anc desc
  exact ⟨hov.nodup,
    fun pn hpn u hu => sortedForm_subset hov.up_sorted pn hpn u hu,
    fun pn hpn u hu => dropForm_subset hov.down_sorted pn hpn u hu,
    hov.up_sorted, hov.down_sorted⟩

/-- C5: `filter_pipeline` raises an error iff the execution mode is not SYNC,
or some node is a sub-pipeline, or the sequence is not topologically sorted
(some upstream id not seen earlier in forward order, or some downstream id
not seen later); each violation yields its distinct error kind; the error is
exactly the one produced by the up-front validators, before any
transformation begins, and (the `Except` result being either an error or a
value) no partial output is ever returned. -/
theorem claim5_error_taxonomy (p : Pipeline) (f t : String → Bool) :
    ((∃ e, filter_pipeline p f t = .error e)
      ↔ (p.execution_mode ≠ ExecutionMode.SYNC
          ∨ (∃ pn ∈ p.nodes, pn.isSubPipeline = true)
          ∨ ¬ UpstreamSorted p ∨ ¬ DownstreamSorted p))
    ∧ (∀ e, filter_pipeline p f t = .error e ↔ validatePipeline p = .error e)
    ∧ (∀ e, filter_pipeline p f t = .error e →
        match e with
        | .NotSyncPipeline => p.execution_mode ≠ ExecutionMode.SYNC
        | .SubPipelineFound pn => pn ∈ p.nodes ∧ pn.isSubPipeline = true
        | .UpstreamNotSorted _ _ => ¬ UpstreamSorted p
        | .DownstreamNotSorted _ _ => ¬ DownstreamSorted p
        | .KeyError _ => False) := by
  refine ⟨?_, fun e => filter_error_iff_validate p f t e, ?_⟩
  · constructor
    · rintro ⟨e, he⟩
      have hve := (filter_error_iff_validate p f t e).mp he
      by_contra hcon
      push_neg at hcon
      obtain ⟨h1, h2, h3, h4⟩ := hcon
      have h2' : ∀ pn ∈ p.nodes, pn.isSubPipeline = false := by
        intro pn hpn
        have := h2 pn hpn
        simpa using this
      have hok : validatePipeline p = .ok () :=
        (validate_ok_iff p).mpr ⟨h1, h2', h3, h4⟩
      rw [hok] at hve
      cases hve
    · intro hviol
      cases hval : validatePipeline p with
      | error e => exact ⟨e, (filter_error_iff_validate p f t e).mpr hval⟩
      | ok u =>
        cases u
        exfalso
        have hconj := (validate_ok_iff p).mp hval
        rcases hviol with h | h | h | h
        · exact h hconj.1
        · rcases h with ⟨pn, hpn, hsub⟩
          rw [hconj.2.1 pn hpn] at hsub
          cases hsub
        · exact h hconj.2.2.1
        · exact h hconj.2.2.2
  · intro e he
    have hk := validate_error_kind p e ((filter_error_iff_validate p f t e).mp he)
    cases e <;> exact hk

/-- C7: filtering a valid input graph with both predicates selecting every
node id returns a graph structurally identical to the input, with the
deployment configuration equal to the input's, together with an empty
orphaned-channel mapping.  (Validity of the deployment config means its
per-node maps are keyed by node ids of this graph, per the data model.) -/
theorem claim7_identity {p : Pipeline} (hv : ValidPipeline p)
    (hcfg : ∀ dc, p.deployment_config = some dc →
      (∀ q ∈ dc.executor_specs, q.1 ∈ NodeIds p)
      ∧ (∀ q ∈ dc.custom_driver_specs, q.1 ∈ NodeIds p)
      ∧ (∀ q ∈ dc.node_level_platform_configs, q.1 ∈ NodeIds p)) :
    filter_pipeline p (fun _ => true) (fun _ => true) = .ok (p, []) :=
  identity_run hv hcfg

/-- C8: if the input graph has no deployment configuration, the output has
none; otherwise each of the three per-node maps in the output deployment
configuration contains exactly the entries of the input map whose key is in
the retained node set, values unchanged and in order. -/
theorem claim8_config_filtering {p : Pipeline} (f t : String → Bool)
    (hv : ValidPipeline p) {out : Pipeline} {cm : ChannelMap}
    (hok : filter_pipeline p f t = .ok (out, cm)) :
    (p.deployment_config = none → out.deployment_config = none)
    ∧ (∀ dc, p.deployment_config = some dc →
        out.deployment_config = some
          ⟨dc.executor_specs.filter (fun q => decide (q.1 ∈ NodeIds out)),
           dc.custom_driver_specs.filter (fun q => decide (q.1 ∈ NodeIds out)),
           dc.node_level_platform_configs.filter (fun q => decide (q.1 ∈ NodeIds out))⟩) := by
  rcases filter_pipeline_out hv hok with ⟨anc, desc, -, -, rfl, -⟩
  rw [out_config_eq hv anc desc, out_ids_eq hv anc desc _]
  constructor
  · intro hnone
    unfold fix_deployment_config
    simp only [hnone]
  · intro dc hdc
    unfold fix_deployment_config
    simp only [hdc, fix_per_node_config]

/-- C9: for every input graph that passes the three validation checks and
every predicate pair, no stage after validation can fail: every neighbor id
stored in the node index is itself a key of the index (so every traversal
lookup succeeds), and `filter_pipeline` returns a result. -/
theorem claim9_totality_after_validation (p : Pipeline) (f t : String → Bool)
    (hsync : p.execution_mode = ExecutionMode.SYNC)
    (hnosub : ∀ pn ∈ p.nodes, pn.isSubPipeline = false)
    (hup : UpstreamSorted p) (hdn : DownstreamSorted p) :
    (∀ d : Direction, ClosedMap (make_ordered_node_map p) d)
    ∧ ∃ res, filter_pipeline p f t = .ok res := by
  refine ⟨?_, filter_pipeline_total hsync hnosub hup hdn f t⟩
  intro d
  cases d with
  | UPSTREAM => exact make_map_closed p _ (sortedForm_subset hup)
  | DOWNSTREAM => exact make_map_closed p _ (dropForm_subset hdn)

/-- C10: every retained node's output counterpart agrees with the input node
on every field other than `upstream_nodes` and `downstream_nodes`, which
become their original sequences restricted (in order) to retained ids; in
particular the input specs and their channels are untouched. -/
theorem claim10_node_frame {p : Pipeline} (f t : String → Bool)
    (hv : ValidPipeline p) {out : Pipeline} {cm : ChannelMap}
    (hok : filter_pipeline p f t = .ok (out, cm)) :
    ∀ pn ∈ p.nodes, pn.getNode.node_id ∈ NodeIds out →
      PipelineOrNode.pipeline_node
        { pn.getNode with
          upstream_nodes :=
            pn.getNode.upstream_nodes.filter (fun u => decide (u ∈ NodeIds out))
          downstream_nodes :=
            pn.getNode.downstream_nodes.filter (fun u => decide (u ∈ NodeIds out)) }
        ∈ out.nodes := by
  rcases filter_pipeline_out hv hok with ⟨anc, desc, -, -, rfl, -⟩
  intro pn hpn hid
  rw [out_ids_eq hv anc desc _] at hid
  rw [out_nodes_eq hv anc desc _, out_ids_eq hv anc desc _]
  apply List.mem_map.mpr
  refine ⟨(pn.getNode.node_id, pn.getNode), ?_, rfl⟩
  unfold retainedPairs
  apply List.mem_filter.mpr
  refine ⟨List.mem_map_of_mem _ hpn, ?_⟩
  rw [odKeys_retainedPairs] at hid
  exact (List.mem_filter.mp hid).2

/-! ### Witnesses: each claim theorem applied at a concrete pipeline -/

theorem claim1_reachability_witness :
    "B" ∈ NodeIds sampleOutB ↔
      (PipeReachable samplePipeline Direction.DOWNSTREAM
          ((NodeIds samplePipeline).filter (fun x => x == "B")) "B"
        ∧ PipeReachable samplePipeline Direction.UPSTREAM
            ((NodeIds samplePipeline).filter (fun _ => true)) "B") :=
  claim1_reachability (fun x => x == "B") (fun _ => true)
    samplePipeline_valid sample_run_fromB "B"

theorem claim2_order_preservation_witness :
    NodeIds sampleOutB
      = (NodeIds samplePipeline).filter (fun x => decide (x ∈ NodeIds sampleOutB)) :=
  claim2_order_preservation (fun x => x == "B") (fun _ => true)
    samplePipeline_valid sample_run_fromB

theorem claim3_orphans_amended_witness :
    chA ∈ cmLookup [("A", [chA])] "A"
      ↔ (chA.producer_id = "A"
          ∧ "A" ∈ NodeIds samplePipeline ∧ "A" ∉ NodeIds sampleOutB
          ∧ ∃ pn ∈ samplePipeline.nodes, pn.getNode.node_id ∈ NodeIds sampleOutB
              ∧ "A" ∈ pn.getNode.upstream_nodes
              ∧ ∃ spec ∈ pn.getNode.inputs, chA ∈ spec.2.channels) :=
  claim3_orphans_amended (fun x => x == "B") (fun _ => true)
    samplePipeline_valid sample_run_fromB chA "A"

theorem claim4_output_invariants_witness :
    (NodeIds sampleOutB).Nodup
    ∧ (∀ pn ∈ sampleOutB.nodes, ∀ u ∈ pn.getNode.upstream_nodes, u ∈ NodeIds sampleOutB)
    ∧ (∀ pn ∈ sampleOutB.nodes, ∀ u ∈ pn.getNode.downstream_nodes, u ∈ NodeIds sampleOutB)
    ∧ UpstreamSorted sampleOutB ∧ DownstreamSorted sampleOutB :=
  claim4_output_invariants (fun x => x == "B") (fun _ => true)
    samplePipeline_valid sample_run_fromB

theorem claim7_identity_witness :
    filter_pipeline samplePipeline (fun _ => true) (fun _ => true)
      = .ok (samplePipeline, []) :=
  claim7_identity samplePipeline_valid
    (by
      intro dc hdc
      injection hdc with h
      subst h
      exact ⟨by decide, by decide, by decide⟩)

theorem claim8_config_filtering_witness :
    (samplePipeline.deployment_config = none → sampleOutB.deployment_config = none)
    ∧ (∀ dc, samplePipeline.deployment_config = some dc →
        sampleOutB.deployment_config = some
          ⟨dc.executor_specs.filter (fun q => decide (q.1 ∈ NodeIds sampleOutB)),
           dc.custom_driver_specs.filter (fun q => decide (q.1 ∈ NodeIds sampleOutB)),
           dc.node_level_platform_configs.filter
             (fun q => decide (q.1 ∈ NodeIds sampleOutB))⟩) :=
  claim8_config_filtering (fun x => x == "B") (fun _ => true)
    samplePipeline_valid sample_run_fromB

theorem claim9_totality_after_validation_witness :
    (∀ d : Direction, ClosedMap (make_ordered_node_map samplePipeline) d)
    ∧ ∃ res, filter_pipeline samplePipeline (fun _ => true) (fun _ => true) = .ok res :=
  claim9_totality_after_validation samplePipeline (fun _ => true) (fun _ => true)
    samplePipeline_valid.sync samplePipeline_valid.no_sub
    samplePipeline_valid.up_sorted samplePipeline_valid.down_sorted

theorem claim10_node_frame_witness :
    PipelineOrNode.pipeline_node
      { nodeB with
        upstream_nodes :=
          nodeB.upstream_nodes.filter (fun u => decide (u ∈ NodeIds sampleOutB))
        downstream_nodes :=
          nodeB.downstream_nodes.filter (fun u => decide (u ∈ NodeIds sampleOutB)) }
      ∈ sampleOutB.nodes :=
  claim10_node_frame (fun x => x == "B") (fun _ => true)
    samplePipeline_valid sample_run_fromB
    (PipelineOrNode.pipeline_node nodeB) (by decide) (by decide)

end Tfx
